import Mathlib

set_option maxRecDepth 100000

/-!
Verification of the NTFS MFT/INDX parsing library (MFT.py of INDXParse).

The byte buffers of the source are modelled as `List Nat` (each element one
unsigned byte).  All multi-byte reads are little-endian, as in the source's
`struct` format strings.  Reads that fall outside the buffer are modelled as
`Option.none` (the source raises `OverrunBufferException` / `struct.error`).
Structured views (`MFTRecord`, `Attribute`, `FilenameAttribute`, index
entries) are parsed into Lean structures holding the field values that the
source's accessors would return.
-/

/-- Modelled from the spec: BinaryParser's `read_byte`/`unpack_byte` (the
BinaryParser module is not under src/).  A bounds-checked single-byte read. -/
def unpack_byte (buf : List Nat) (off : Nat) : Option Nat :=
  buf[off]?

/-- Modelled from the spec: BinaryParser's `unpack_word` — a bounds-checked
16-bit unsigned little-endian read. -/
def unpack_word (buf : List Nat) (off : Nat) : Option Nat :=
  match buf[off]?, buf[off + 1]? with
  | some lo, some hi => some (lo + 256 * hi)
  | _, _ => none

/-- Modelled from the spec: BinaryParser's `unpack_dword` — a bounds-checked
32-bit unsigned little-endian read. -/
def unpack_dword (buf : List Nat) (off : Nat) : Option Nat :=
  match unpack_word buf off, unpack_word buf (off + 2) with
  | some lo, some hi => some (lo + 65536 * hi)
  | _, _ => none

/-- Modelled from the spec: BinaryParser's `unpack_qword` — a bounds-checked
64-bit unsigned little-endian read. -/
def unpack_qword (buf : List Nat) (off : Nat) : Option Nat :=
  match unpack_dword buf off, unpack_dword buf (off + 4) with
  | some lo, some hi => some (lo + 4294967296 * hi)
  | _, _ => none

/-- Modelled from the spec: BinaryParser's `unpack_wstring` — `n` UTF-16LE
code units starting at `off`, bounds checked.  The result is the list of the
`n` 16-bit code units. -/
def unpack_wstring (buf : List Nat) (off n : Nat) : Option (List Nat) :=
  if off + 2 * n ≤ buf.length then
    some ((List.range n).map fun i =>
      buf.getD (off + 2 * i) 0 + 256 * buf.getD (off + 2 * i + 1) 0)
  else none

/-- Modelled from the spec: BinaryParser's `pack_word` — write a 16-bit word
little-endian in place (`struct.pack_into("<H", ...)`). -/
def pack_word (buf : List Nat) (off v : Nat) : List Nat :=
  (buf.set off (v % 256)).set (off + 1) (v >>> 8 % 256)

/-! ## Runlist (MFT.py `Runentry`, `Runlist`) -/

/-- `Runentry.lsb2num`: unsigned little-endian integer from a byte list. -/
def lsb2num : List Nat → Nat
  | [] => 0
  | b :: rest => b + 256 * lsb2num rest

/-- `Runentry.lsb2signednum`: signed two's-complement little-endian integer
from a byte list; the sign bit is the MSB of the last byte.  (On an empty
list the source would raise `IndexError`; it is only applied to the non-empty
offset field of valid entries.) -/
def lsb2signednum (bs : List Nat) : Int :=
  match bs.getLast? with
  | none => 0
  | some last =>
    if last &&& 0x80 ≠ 0 then
      -((lsb2num (bs.map fun b => b ^^^ 0xFF) : Int) + 1)
    else
      (lsb2num bs : Int)

/-- One runlist entry: header byte, then `length_length = header & 0xF` bytes
of cluster count, then `offset_length = header >> 4` bytes of signed cluster
delta (`Runentry.__init__`).  The binary fields are slices of the buffer
(Python slicing truncates at the end of the buffer). -/
structure Runentry where
  header : Nat
  length_binary : List Nat
  offset_binary : List Nat
deriving Repr, DecidableEq

/-- Parse a `Runentry` at `off`; the constructor reads the header byte
eagerly, so it fails past the end of the buffer. -/
def parseRunentry (buf : List Nat) (off : Nat) : Option Runentry := do
  let h ← unpack_byte buf off
  pure { header := h
         length_binary := (buf.drop (off + 1)).take (h &&& 0xF)
         offset_binary := (buf.drop (off + 1 + (h &&& 0xF))).take (h >>> 4) }

/-- `Runentry.size`: the entry's `current_field_offset` after declaring the
header and the two binary fields. -/
def Runentry.size (e : Runentry) : Nat :=
  1 + (e.header &&& 0xF) + (e.header >>> 4)

/-- `Runentry.is_valid`: both nibbles of the header are nonzero. -/
def Runentry.is_valid (e : Runentry) : Bool :=
  decide (e.header >>> 4 > 0) && decide (e.header &&& 0xF > 0)

/-- `Runentry.offset`: signed cluster-offset delta. -/
def Runentry.offset (e : Runentry) : Int :=
  lsb2signednum e.offset_binary

/-- `Runentry.length`: unsigned cluster count. -/
def Runentry.length (e : Runentry) : Nat :=
  lsb2num e.length_binary

/-- `Runlist._entries`: collect entries while the header is nonzero, the
optional length limit is not passed, and the entry is valid.  `fuel` bounds
the recursion; `buf.length + 1` always suffices because the cursor strictly
increases and an out-of-buffer header read ends the walk. -/
def Runlist.entriesAux (buf : List Nat) (start : Nat) (len? : Option Nat) :
    Nat → Nat → List Runentry
  | 0, _ => []
  | fuel + 1, off =>
    match parseRunentry buf off with
    | none => []
    | some e =>
      if e.header ≠ 0 ∧ (∀ L ∈ len?, off < start + L) ∧ e.is_valid = true then
        e :: Runlist.entriesAux buf start len? fuel (off + e.size)
      else []

/-- `Runlist._entries` starting at the runlist's offset. -/
def Runlist.entries (buf : List Nat) (start : Nat) (len? : Option Nat) :
    List Runentry :=
  Runlist.entriesAux buf start len? (buf.length + 1) start

/-- `Runlist.runs`: prefix-sum the signed deltas, starting from 0, pairing
each absolute cluster offset with the unsigned cluster count. -/
def Runlist.runsAux : List Runentry → Int → List (Int × Nat)
  | [], _ => []
  | e :: rest, last =>
    (last + e.offset, e.length) :: Runlist.runsAux rest (last + e.offset)

/-- `Runlist.runs` from the decoded entries. -/
def Runlist.runs (buf : List Nat) (start : Nat) (len? : Option Nat) :
    List (Int × Nat) :=
  Runlist.runsAux (Runlist.entries buf start len?) 0

/-! ## Multi-sector fixup (MFT.py `FixupBlock.fixup`) -/

/-- One iteration `i` of `FixupBlock.fixup`'s loop: read the word at the
sector tail `512 * (i + 1) - 2`; on mismatch with the update sequence value
leave the buffer as is (a warning is logged); on match overwrite the tail
word with the replacement word at `fixup_value_offset + 2 + 2 * i`.  `none`
models an `OverrunBufferException` escaping the loop. -/
def fixupStep (buf : List Nat) (fixup_value fvo i : Nat) : Option (List Nat) :=
  match unpack_word buf (512 * (i + 1) - 2) with
  | none => none
  | some check =>
    if check ≠ fixup_value then some buf
    else
      match unpack_word buf (fvo + 2 + 2 * i) with
      | none => none
      | some new_value => some (pack_word buf (512 * (i + 1) - 2) new_value)

/-- The fixup loop over `i = start, start + 1, ...` for `k` iterations,
threading the mutated buffer. -/
def fixupGo (fixup_value fvo : Nat) : Nat → Nat → List Nat → Option (List Nat)
  | _, 0, buf => some buf
  | i, k + 1, buf =>
    match fixupStep buf fixup_value fvo i with
    | none => none
    | some b => fixupGo fixup_value fvo (i + 1) k b

/-- `FixupBlock.fixup(num_fixups, fixup_value_offset)`: read the update
sequence value at `fixup_value_offset`, then run the loop for
`i in range(0, num_fixups - 1)`. -/
def FixupBlock.fixup (buf : List Nat) (num_fixups fixup_value_offset : Nat) :
    Option (List Nat) := do
  let fv ← unpack_word buf fixup_value_offset
  fixupGo fv fixup_value_offset 0 (num_fixups - 1) buf

/-- The 1024-byte fixup example record, with all words stored little-endian:
sentinel word `0xBEEF` at `0x30`, replacement words `0x1122` at `0x32` and
`0x3344` at `0x34`, and the sentinel word `0xBEEF` (bytes `0xEF 0xBE`) as
placeholder at the two sector tails `0x1FE` and `0x3FE`. -/
def c2ExampleByte (j : Nat) : Nat :=
  if j = 0x30 then 0xEF else if j = 0x31 then 0xBE
  else if j = 0x32 then 0x22 else if j = 0x33 then 0x11
  else if j = 0x34 then 0x44 else if j = 0x35 then 0x33
  else if j = 0x1FE then 0xEF else if j = 0x1FF then 0xBE
  else if j = 0x3FE then 0xEF else if j = 0x3FF then 0xBE
  else 0

/-- The fixup example record of `c2ExampleByte` as a buffer. -/
def c2ExampleBuf : List Nat := (List.range 1024).map c2ExampleByte

/-- The fixup example record with the placeholder *bytes* `0xBE 0xEF` taken
literally at offsets `0x1FE` and `0x3FE` (so the placeholder words read
little-endian are `0xEFBE`, not the sentinel `0xBEEF`). -/
def c2ClaimByte (j : Nat) : Nat :=
  if j = 0x30 then 0xEF else if j = 0x31 then 0xBE
  else if j = 0x32 then 0x22 else if j = 0x33 then 0x11
  else if j = 0x34 then 0x44 else if j = 0x35 then 0x33
  else if j = 0x1FE then 0xBE else if j = 0x1FF then 0xEF
  else if j = 0x3FE then 0xBE else if j = 0x3FF then 0xEF
  else 0

/-- The claim-literal fixup example record as a buffer. -/
def c2ClaimBuf : List Nat := (List.range 1024).map c2ClaimByte

/-- An adversarial 1026-byte buffer whose update-sequence array overlaps the
second sector tail: `usa_offset = 1020`, so the replacement word for sector 0
sits at offset 1022 — which is itself the tail of sector 1. -/
def c7CexByte (j : Nat) : Nat :=
  if j = 510 ∨ j = 511 then 0xAA
  else if 1020 ≤ j ∧ j ≤ 1023 then 0xAA
  else if j = 1024 ∨ j = 1025 then 0xBB
  else 0

/-- The adversarial fixup buffer of `c7CexByte`. -/
def c7CexBuf : List Nat := (List.range 1026).map c7CexByte

/-! ## FILETIME and FilenameAttribute (MFT.py `FilenameAttribute`) -/

/-- FILETIME (count of 100 ns intervals since 1601-01-01 UTC) of
1990-01-01T00:00:00Z: 142079 days = 12275625600 s. -/
def FILETIME_1990 : Nat := 122756256000000000

/-- FILETIME of 2025-01-01T00:00:00Z: 154863 days = 13380163200 s. -/
def FILETIME_2025 : Nat := 133801632000000000

/-- FILETIME of 10000-01-01T00:00:00Z, the first instant Python's `datetime`
cannot represent: 3067671 days = 265046774400 s. -/
def FILETIME_10000 : Nat := 2650467744000000000

/-- Modelled from the spec: BinaryParser's `parse_filetime` (BinaryParser is
not under src/) converts a FILETIME qword to a datetime; a value outside the
representable range errors and the core treats the entry as invalid (`none`
here).  Comparisons of converted datetimes agree with comparisons of the raw
100 ns counts, so the model keeps the raw count as the converted value. -/
def parse_filetime (t : Nat) : Option Nat :=
  if t < FILETIME_10000 then some t else none

/-- `FilenameAttribute` field values.  `filename_type` (the byte at `0x41`)
and `filename` (the UTF-16LE `wstring` at `0x42`) lie beyond the eagerly
read region, so a read failure there surfaces only at their accessors:
`none` models the raised `OverrunBufferException`. -/
structure FilenameAttribute where
  mft_parent_reference : Nat
  created_time : Nat
  modified_time : Nat
  changed_time : Nat
  accessed_time : Nat
  physical_size : Nat
  logical_size : Nat
  flags : Nat
  reparse_value : Nat
  filename_length : Nat
  filename_type : Option Nat
  filename : Option (List Nat)
deriving Repr, DecidableEq

/-- `FilenameAttribute.__init__`: the constructor eagerly reads
`filename_length` (the byte at `off + 0x40`) to declare the `filename`
wstring, so construction succeeds exactly when `off + 0x41 ≤ buf.length`;
all the other fixed fields lie below that bound and are stored here as the
values their accessors return.  The four timestamps are kept as raw FILETIME
qwords (`declare_field("filetime", ...)` converts on access via
`parse_filetime`). -/
def parseFilenameAttribute (buf : List Nat) (off : Nat) :
    Option FilenameAttribute := do
  let pr ← unpack_qword buf (off + 0x0)
  let ct ← unpack_qword buf (off + 0x8)
  let mt ← unpack_qword buf (off + 0x10)
  let cht ← unpack_qword buf (off + 0x18)
  let act ← unpack_qword buf (off + 0x20)
  let ps ← unpack_qword buf (off + 0x28)
  let ls ← unpack_qword buf (off + 0x30)
  let fl ← unpack_dword buf (off + 0x38)
  let rv ← unpack_dword buf (off + 0x3C)
  let fnl ← unpack_byte buf (off + 0x40)
  pure { mft_parent_reference := pr, created_time := ct, modified_time := mt,
         changed_time := cht, accessed_time := act, physical_size := ps,
         logical_size := ls, flags := fl, reparse_value := rv,
         filename_length := fnl,
         filename_type := unpack_byte buf (off + 0x41),
         filename := unpack_wstring buf (off + 0x42) fnl }

/-! ## Slack recovery scan
(MFT.py `NTATTR_STANDARD_INDEX_HEADER.slack_entries`, `SlackIndexEntry`) -/

/-- `SlackIndexEntry.is_valid`: the embedded `FilenameAttribute`'s four
timestamps all convert without error and lie strictly between
1990-01-01 and 2025-01-01 (datetime comparisons modelled on the raw
FILETIME counts, conversion being monotone).  A conversion error
(`ValueError`, caught in the source) makes the entry invalid, exactly as a
failed comparison does. -/
def SlackIndexEntry.is_valid (fn : FilenameAttribute) : Bool :=
  match parse_filetime fn.modified_time, parse_filetime fn.accessed_time,
        parse_filetime fn.changed_time, parse_filetime fn.created_time with
  | some m, some a, some ch, some cr =>
    decide (FILETIME_1990 < m) && decide (FILETIME_1990 < a) &&
    decide (FILETIME_1990 < ch) && decide (FILETIME_1990 < cr) &&
    decide (m < FILETIME_2025) && decide (a < FILETIME_2025) &&
    decide (ch < FILETIME_2025) && decide (cr < FILETIME_2025)
  | _, _, _, _ => false

/-- A slack-recovered index entry as yielded by the scan: the cursor offset
it was parsed at, its declared `length` (word at `offset + 0x8`), its
`filename_information_length` (word at `offset + 0xA`), and the embedded
`FilenameAttribute` parsed at `offset + 0x10`. -/
structure SlackIndexEntryView where
  offset : Nat
  length : Nat
  filename_information_length : Nat
  fn : FilenameAttribute
deriving Repr, DecidableEq

/-- Outcome of probing one slack candidate. -/
inductive SlackOutcome where
  | overrun : SlackOutcome
  | invalid : SlackOutcome
  | valid : SlackIndexEntryView → SlackOutcome
deriving Repr, DecidableEq

/-- Probe a slack candidate at `off`: constructing `SlackIndexEntry` eagerly
reads the entry-header words at `off + 0x8` and `off + 0xA` — a read past
the buffer there ends the whole scan (the overrun escapes as the spec's
"terminate on buffer overrun").  `is_valid` then parses the embedded
`FilenameAttribute` at `off + 0x10` inside a bare `except:` — any failure
just makes the candidate invalid — and applies the timestamp window. -/
def slackCandidate (buf : List Nat) (off : Nat) : SlackOutcome :=
  match unpack_word buf (off + 0x8), unpack_word buf (off + 0xA) with
  | some len, some fil =>
    match parseFilenameAttribute buf (off + 0x10) with
    | none => SlackOutcome.invalid
    | some fn =>
      if SlackIndexEntry.is_valid fn then
        SlackOutcome.valid
          { offset := off, length := len,
            filename_information_length := fil, fn := fn }
      else SlackOutcome.invalid
  | _, _ => SlackOutcome.overrun

/-- One iteration of the `slack_entries` loop: `none` when the scan ends
(cursor beyond `entry_list_allocation_end − 0x52`, or overrun), otherwise
the optionally yielded entry and the next cursor: `offset + (length or 1)`
after a valid entry, `offset + 1` after an invalid one. -/
def slackStep (buf : List Nat) (allocEnd off : Nat) :
    Option (Option SlackIndexEntryView × Nat) :=
  if (off : Int) ≤ (allocEnd : Int) - 0x52 then
    match slackCandidate buf off with
    | SlackOutcome.overrun => none
    | SlackOutcome.invalid => some (none, off + 1)
    | SlackOutcome.valid e =>
        some (some e, off + (if e.length = 0 then 1 else e.length))
  else none

/-- The slack scan loop, with explicit fuel (the source's generator runs
unfueled; `allocEnd + 1` fuel is always enough, as proved below). -/
def slackScanAux (buf : List Nat) (allocEnd : Nat) :
    Nat → Nat → List SlackIndexEntryView
  | 0, _ => []
  | fuel + 1, off =>
    match slackStep buf allocEnd off with
    | none => []
    | some (oe, next) => oe.toList ++ slackScanAux buf allocEnd fuel next

/-- The slack scan from `entry_list_end` toward
`entry_list_allocation_end − 0x52`. -/
def slackScan (buf : List Nat) (listEnd allocEnd : Nat) :
    List SlackIndexEntryView :=
  slackScanAux buf allocEnd (allocEnd + 1) listEnd

/-- `NTATTR_STANDARD_INDEX_HEADER.slack_entries`: read `entry_list_end`
(dword at `base + 0x4`) and `entry_list_allocation_end` (dword at
`base + 0x8`) from the node header and scan.  (As in the source, the slack
cursor is used as an absolute buffer offset without adding the node's own
offset.) -/
def NTATTR_STANDARD_INDEX_HEADER.slack_entries (buf : List Nat) (base : Nat) :
    Option (List SlackIndexEntryView) := do
  let le ← unpack_dword buf (base + 0x4)
  let ae ← unpack_dword buf (base + 0x8)
  pure (slackScan buf le ae)

/-- A slack-scan demo buffer serving as its own node header at base 0:
`entry_list_end = 0` (dword at 0x4), `entry_list_allocation_end = 0x52`
(dword at 0x8, whose low byte doubles as the candidate's declared length),
and one plausible `FilenameAttribute` at offset `0x10` whose four timestamps
are `0x01C0000000000000` (mid-2000, inside the 1990–2025 window). -/
def c3DemoByte (j : Nat) : Nat :=
  if j = 0x8 then 0x52
  else if j = 0x1E ∨ j = 0x26 ∨ j = 0x2E ∨ j = 0x36 then 0xC0
  else if j = 0x1F ∨ j = 0x27 ∨ j = 0x2F ∨ j = 0x37 then 0x01
  else 0

/-- The slack-scan demo buffer of `c3DemoByte` (0x70 bytes). -/
def c3DemoBuf : List Nat := (List.range 0x70).map c3DemoByte

/-- The `FilenameAttribute` view the slack scan recovers from `c3DemoBuf`. -/
def c3DemoFn : FilenameAttribute :=
  { mft_parent_reference := 0, created_time := 126100789566373888,
    modified_time := 126100789566373888, changed_time := 126100789566373888,
    accessed_time := 126100789566373888, physical_size := 0,
    logical_size := 0, flags := 0, reparse_value := 0, filename_length := 0,
    filename_type := some 0, filename := some [] }

/-- The slack entry the scan yields from `c3DemoBuf`. -/
def c3DemoEntry : SlackIndexEntryView :=
  { offset := 0, length := 0x52, filename_information_length := 0,
    fn := c3DemoFn }

/-- A 32-byte all-zero buffer: its slack candidate at offset 0 parses the
entry-header words but the embedded `FilenameAttribute` overruns, so the
candidate is invalid and the scan slides one byte. -/
def c9DemoBuf : List Nat := List.replicate 32 0

/-! ## Attributes and MFT records (MFT.py `Attribute`, `MFTRecord`).
All constructions of `MFTRecord` in the source pass offset 0
(`MFTRecord(buf, 0, False)`), so records are modelled at base offset 0. -/

/-- `ATTR_TYPE.FILENAME_INFORMATION`. -/
def ATTR_TYPE.FILENAME_INFORMATION : Nat := 0x30

/-- An `Attribute` view: its offset in the record buffer, `type` (dword at
`offset`), the raw declared size dword (at `offset + 4`, what
`self.unpack_dword(self._off_size)` returns inside `Attribute.size`), the
`non_resident` byte, and the resident `value` bytes.  `value = none` models
both a non-resident attribute (whose `value()` accessor raises
`AttributeError`) and a resident value range that overruns the buffer
(`OverrunBuffer` on the bounds-checked binary read). -/
structure Attribute where
  offset : Nat
  type : Nat
  declaredSize : Nat
  non_resident : Nat
  value : Option (List Nat)
deriving Repr, DecidableEq

/-- `Attribute.size`: `s + (8 - (s % 8))` for the declared size dword `s` —
note this adds a full 8 when `s` is already a multiple of 8. -/
def Attribute.size (a : Attribute) : Nat :=
  a.declaredSize + (8 - a.declaredSize % 8)

/-- `Attribute.__init__` at `off`: eagerly reads `type`, `size` and
`non_resident`; in the resident branch it also eagerly reads `value_length`
(dword at `off + 0x10`) and `value_offset` (word at `off + 0x14`) to declare
the `value` binary field.  The other header fields are declared lazily and
are not used by the claims. -/
def parseAttribute (buf : List Nat) (off : Nat) : Option Attribute := do
  let t ← unpack_dword buf off
  let s ← unpack_dword buf (off + 4)
  let nr ← unpack_byte buf (off + 8)
  if nr > 0 then
    pure { offset := off, type := t, declaredSize := s, non_resident := nr,
           value := none }
  else do
    let vl ← unpack_dword buf (off + 0x10)
    let vo ← unpack_word buf (off + 0x14)
    pure { offset := off, type := t, declaredSize := s, non_resident := nr,
           value := if off + vo + vl ≤ buf.length then
               some ((buf.drop (off + vo)).take vl)
             else none }

/-- An MFT record view: the record buffer after in-place fixup. -/
structure MFTRecord where
  buf : List Nat
deriving Repr, DecidableEq

/-- `MFTRecord.__init__(buf, 0)`: reads `usa_offset` (word at 4) and
`usa_count` (word at 6) and applies fixup in place; a read failure during
fixup raises out of the constructor (`none`). -/
def MFTRecord.parse (buf : List Nat) : Option MFTRecord := do
  let uo ← unpack_word buf 0x4
  let uc ← unpack_word buf 0x6
  let b ← FixupBlock.fixup buf uc uo
  pure { buf := b }

/-- `MFTRecord.sequence_number` (word at 0x10). -/
def MFTRecord.sequence_number (r : MFTRecord) : Option Nat :=
  unpack_word r.buf 0x10

/-- `MFTRecord.attrs_offset` (word at 0x14). -/
def MFTRecord.attrs_offset (r : MFTRecord) : Option Nat :=
  unpack_word r.buf 0x14

/-- `MFTRecord.flags` (word at 0x16). -/
def MFTRecord.flags (r : MFTRecord) : Option Nat :=
  unpack_word r.buf 0x16

/-- `MFTRecord.bytes_in_use` (dword at 0x18). -/
def MFTRecord.bytes_in_use (r : MFTRecord) : Option Nat :=
  unpack_dword r.buf 0x18

/-- `MFTRecord.mft_record_number` (dword at 0x2C). -/
def MFTRecord.mft_record_number (r : MFTRecord) : Option Nat :=
  unpack_dword r.buf 0x2C

/-- The `MFTRecord.attributes` loop: while the dword at the cursor is
neither `0` nor `0xFFFFFFFF` and the cursor plus the next declared size
dword stays within `bytes_in_use`, construct the attribute and advance by
`a.size()`.  A failed read raises out of the generator (`none`).  `fuel`
bounds the recursion; since `a.size() ≥ 8` the loop runs at most
`biu / 8 + 1` iterations, so `biu + 2` fuel always suffices. -/
def MFTRecord.attributesAux (buf : List Nat) (biu : Nat) :
    Nat → Nat → Option (List Attribute)
  | 0, _ => some []
  | fuel + 1, off => do
    let t ← unpack_dword buf off
    if t = 0 ∨ t = 0xFFFFFFFF then pure []
    else do
      let s ← unpack_dword buf (off + 4)
      if off + s ≤ biu then do
        let a ← parseAttribute buf off
        let rest ← MFTRecord.attributesAux buf biu fuel (off + a.size)
        pure (a :: rest)
      else pure []

/-- `MFTRecord.attributes`, walking from `attrs_offset`. -/
def MFTRecord.attributes (r : MFTRecord) : Option (List Attribute) := do
  let ao ← r.attrs_offset
  let biu ← r.bytes_in_use
  MFTRecord.attributesAux r.buf biu (biu + 2) ao

/-- The accumulator loop of `MFTRecord.filename_information`: scan the
attributes in order; for a FILENAME attribute, read its resident value and
parse it as a `FilenameAttribute`; reading `filename_type` is part of the
guarded block, so any failure up to and including it is swallowed (`except
Exception: pass`) and the accumulator `fn` is left unchanged; a Win32 (1) or
Win32+DOS (3) namespace returns the view immediately, any other namespace
remembers it and scans on. -/
def fnScan : List Attribute → Option FilenameAttribute → Option FilenameAttribute
  | [], fn => fn
  | a :: rest, fn =>
    if a.type = ATTR_TYPE.FILENAME_INFORMATION then
      match a.value with
      | none => fnScan rest fn
      | some v =>
        match parseFilenameAttribute v 0 with
        | none => fnScan rest fn
        | some check =>
          match check.filename_type with
          | none => fnScan rest fn
          | some t =>
            if t = 0x0001 ∨ t = 0x0003 then some check
            else fnScan rest (some check)
    else fnScan rest fn

/-- The FILENAME views that `filename_information` successfully parses, in
scan order, each with its `filename_type`. -/
def fnViews (attrs : List Attribute) : List (FilenameAttribute × Nat) :=
  attrs.filterMap fun a =>
    if a.type = ATTR_TYPE.FILENAME_INFORMATION then
      a.value.bind fun v =>
        (parseFilenameAttribute v 0).bind fun check =>
          check.filename_type.map fun t => (check, t)
    else none

/-- `MFTRecord.filename_information`: scan the record's attributes; the
outer `none` models an exception escaping the attribute iteration itself,
the inner `none` the source's `False` (no FILENAME view found). -/
def MFTRecord.filename_information (r : MFTRecord) :
    Option (Option FilenameAttribute) :=
  r.attributes.map fun as => fnScan as none

/-- A record buffer whose single attribute has declared size `0x10` ending
exactly at `bytes_in_use = 0x48`: the loop admits it (`0x38 + 0x10 ≤ 0x48`)
but `size()` rounds `0x10` up to `0x18`, so `offset + size()` overshoots
`bytes_in_use` by 8. -/
def c4DemoByte (j : Nat) : Nat :=
  if j = 0x4 then 0x30
  else if j = 0x14 then 0x38
  else if j = 0x18 then 0x48
  else if j = 0x38 then 0x10
  else if j = 0x3C then 0x10
  else 0

/-- The attribute-bound demo record of `c4DemoByte` (0x58 bytes). -/
def c4DemoBuf : List Nat := (List.range 0x58).map c4DemoByte

/-- The attribute the iteration yields from `c4DemoBuf`. -/
def c4DemoAttr : Attribute :=
  { offset := 0x38, type := 0x10, declaredSize := 0x10, non_resident := 0,
    value := some [] }

/-- A record with one resident FILENAME attribute whose view has namespace
DOS (2): `filename_information` must remember and return it as the last
successfully parsed view. -/
def c8DemoByte (j : Nat) : Nat :=
  if j = 0x4 then 0x30
  else if j = 0x14 then 0x38
  else if j = 0x19 then 0x01
  else if j = 0x38 then 0x30
  else if j = 0x3C then 0x60
  else if j = 0x48 then 0x44
  else if j = 0x4C then 0x18
  else if j = 0x90 then 0x01
  else if j = 0x91 then 0x02
  else if j = 0x92 then 0x5A
  else 0

/-- The filename-selection demo record of `c8DemoByte` (0x100 bytes). -/
def c8DemoBuf : List Nat := (List.range 0x100).map c8DemoByte

/-- The FILENAME attribute of `c8DemoBuf`. -/
def c8DemoAttr : Attribute :=
  { offset := 0x38, type := 0x30, declaredSize := 0x60, non_resident := 0,
    value := some ((c8DemoBuf.drop 0x50).take 0x44) }

/-- The `FilenameAttribute` view parsed from `c8DemoBuf`'s attribute value:
namespace DOS (2), one-character name "Z". -/
def c8DemoFn : FilenameAttribute :=
  { mft_parent_reference := 0, created_time := 0, modified_time := 0,
    changed_time := 0, accessed_time := 0, physical_size := 0,
    logical_size := 0, flags := 0, reparse_value := 0, filename_length := 1,
    filename_type := some 2, filename := some [0x5A] }

/-! ## Index node live entries (MFT.py `NTATTR_STANDARD_INDEX_HEADER.entries`,
`IndexEntry`) -/

/-- A live index entry as the `entries` loop sees it: its cursor offset
(relative to the node), its declared `length` (word at `+0x8`, read to
advance the cursor before yielding) and `filename_information_length`
(word at `+0xA`, read eagerly by the constructor). -/
structure IndexEntryView where
  relOffset : Nat
  length : Nat
  filename_information_length : Nat
deriving Repr, DecidableEq

/-- `IndexEntry(buf, base + off)` plus the loop's `e.length()` read. -/
def parseIndexEntry (buf : List Nat) (base off : Nat) :
    Option IndexEntryView := do
  let fil ← unpack_word buf (base + off + 0xA)
  let len ← unpack_word buf (base + off + 0x8)
  pure { relOffset := off, length := len, filename_information_length := fil }

/-- The `entries` loop: while the cursor is at most
`entry_list_end − 0x52`, construct the entry at `base + cursor`, advance by
its declared length, and yield it.  With a zero declared length the source
loops forever re-yielding the same entry; `fuel` truncates such a run to a
finite prefix (the claims quantify over every yielded entry either way). -/
def nodeEntriesAux (buf : List Nat) (base listEnd : Nat) :
    Nat → Nat → Option (List IndexEntryView)
  | 0, _ => some []
  | fuel + 1, off =>
    if (off : Int) ≤ (listEnd : Int) - 0x52 then do
      let e ← parseIndexEntry buf base off
      let rest ← nodeEntriesAux buf base listEnd fuel (off + e.length)
      pure (e :: rest)
    else some []

/-- `NTATTR_STANDARD_INDEX_HEADER.entries`: read `entry_list_start` (dword
at `base`) and `entry_list_end` (dword at `base + 4`); a zero
`entry_list_start` yields nothing. -/
def NTATTR_STANDARD_INDEX_HEADER.entries (buf : List Nat) (base fuel : Nat) :
    Option (List IndexEntryView) := do
  let ls ← unpack_dword buf (base + 0x0)
  let le ← unpack_dword buf (base + 0x4)
  if ls = 0 then pure [] else nodeEntriesAux buf base le fuel ls

/-- A node whose single live entry declares length `0x100`, far past
`entry_list_end = 0x70`: the loop yields it anyway, checking only that the
entry *starts* at or before `entry_list_end − 0x52`. -/
def c6DemoByte (j : Nat) : Nat :=
  if j = 0x0 then 0x10
  else if j = 0x4 then 0x70
  else if j = 0x19 then 0x01
  else 0

/-- The index-node demo buffer of `c6DemoByte` (0x20 bytes). -/
def c6DemoBuf : List Nat := (List.range 0x20).map c6DemoByte

/-- The entry yielded from `c6DemoBuf`. -/
def c6DemoEntry : IndexEntryView :=
  { relOffset := 0x10, length := 0x100, filename_information_length := 0 }

/-! ## Path reconstruction (MFT.py `NTFSFile.mft_get_record_buf`,
`NTFSFile.mft_record_build_path`) -/

/-- Model of Python's UTF-16LE decode of the filename code units, adequate
for the BMP, non-surrogate names that occur here. -/
def decodeFilename (units : List Nat) : String :=
  String.mk (units.map Char.ofNat)

/-- `NTFSFile.mft_get_record_buf(number)` for filetype "mft": seek to
`number * 1024` and read 1024 bytes of the file (reads past the end of the
file come back short or empty, as with Python's `f.read`). -/
def NTFSFile.mft_get_record_buf (file : List Nat) (number : Nat) : List Nat :=
  (file.drop (number * 1024)).take 1024

/-- One level of `NTFSFile.mft_record_build_path(record, cycledetector)`,
with `recur` standing for the recursive call.  The `@memoize` wrapper is
not modelled: its cache is keyed on record field values and only filled
when a call returns, so on a fresh call chain it never hits.  The source's
`prefix` is `options["prefix"] or None`, so it is never the empty string
and `Option String` captures it exactly. -/
def buildPathBody (file : List Nat) (pfx : Option String)
    (recur : MFTRecord → List Nat → Option String)
    (record : MFTRecord) (cycledetector : List Nat) : Option String := do
  let mrn ← record.mft_record_number
  let rec_num := mrn &&& 0xFFFFFFFFFFFF
  if rec_num = 0x0005 then
    pure (match pfx with | some p => p | none => "\\.")
  else do
    let fnRes ← record.filename_information
    match fnRes with
    | none => pure "\\??"
    | some fn => do
      let parent_buf :=
        NTFSFile.mft_get_record_buf file
          (fn.mft_parent_reference &&& 0xFFFFFFFFFFFF)
      if parent_buf = [] then do
        let name ← fn.filename
        pure ("\\??\\" ++ decodeFilename name)
      else do
        let parent ← MFTRecord.parse parent_buf
        let pseq ← parent.sequence_number
        if pseq ≠ fn.mft_parent_reference >>> 48 then do
          let name ← fn.filename
          pure ("\\$OrphanFiles\\" ++ decodeFilename name)
        else if rec_num ∈ cycledetector then
          pure ((match pfx with | some p => p | none => "") ++ "\\<CYCLE>")
        else do
          let p ← recur parent (rec_num :: cycledetector)
          let name ← fn.filename
          pure (p ++ "\\" ++ decodeFilename name)

/-- The fuelled recursion of `mft_record_build_path`: one `buildPathBody`
level per unit of fuel.  The source recursion is bounded because each level
inserts a fresh masked record number (< 2^48) into the shared
`cycledetector`; the claims show the result is fuel-insensitive once the
fuel covers the chain. -/
def NTFSFile.mft_record_build_path (file : List Nat) (pfx : Option String) :
    Nat → MFTRecord → List Nat → Option String
  | 0, _, _ => none
  | fuel + 1, record, cycledetector =>
    buildPathBody file pfx (NTFSFile.mft_record_build_path file pfx fuel)
      record cycledetector

/-- Record X (record number 0, sequence 1): one Win32 FILENAME attribute
named "X" whose parent reference is record 1 with expected sequence 2. -/
def c5XByte (j : Nat) : Nat :=
  if j = 0x4 then 0x30
  else if j = 0x10 then 0x01
  else if j = 0x14 then 0x38
  else if j = 0x19 then 0x01
  else if j = 0x38 then 0x30
  else if j = 0x3C then 0x60
  else if j = 0x48 then 0x44
  else if j = 0x4C then 0x18
  else if j = 0x50 then 0x01
  else if j = 0x56 then 0x02
  else if j = 0x90 then 0x01
  else if j = 0x91 then 0x01
  else if j = 0x92 then 0x58
  else 0

/-- Record Y (record number 1, sequence 2): one Win32 FILENAME attribute
named "Y" whose parent reference is record 0 with expected sequence 1. -/
def c5YByte (j : Nat) : Nat :=
  if j = 0x4 then 0x30
  else if j = 0x10 then 0x02
  else if j = 0x14 then 0x38
  else if j = 0x19 then 0x01
  else if j = 0x2C then 0x01
  else if j = 0x38 then 0x30
  else if j = 0x3C then 0x60
  else if j = 0x48 then 0x44
  else if j = 0x4C then 0x18
  else if j = 0x56 then 0x01
  else if j = 0x90 then 0x01
  else if j = 0x91 then 0x01
  else if j = 0x92 then 0x59
  else 0

/-- Record X's 1024-byte buffer. -/
def c5XBuf : List Nat := (List.range 1024).map c5XByte

/-- Record Y's 1024-byte buffer. -/
def c5YBuf : List Nat := (List.range 1024).map c5YByte

/-- A two-record MFT file in which X and Y name each other as parent with
matching sequence numbers. -/
def c5File : List Nat := c5XBuf ++ c5YBuf

/-- Record Z: like X but its parent reference points at record 7, beyond
the one-record file, so the parent buffer comes back empty. -/
def c10Byte (j : Nat) : Nat :=
  if j = 0x4 then 0x30
  else if j = 0x10 then 0x01
  else if j = 0x14 then 0x38
  else if j = 0x19 then 0x01
  else if j = 0x38 then 0x30
  else if j = 0x3C then 0x60
  else if j = 0x48 then 0x44
  else if j = 0x4C then 0x18
  else if j = 0x50 then 0x07
  else if j = 0x90 then 0x01
  else if j = 0x91 then 0x01
  else if j = 0x92 then 0x58
  else 0

/-- Record Z's buffer, also serving as the whole (one-record) file. -/
def c10Buf : List Nat := (List.range 1024).map c10Byte

/-- The `FilenameAttribute` view of record Z: name "X", parent record 7. -/
def c10Fn : FilenameAttribute :=
  { mft_parent_reference := 7, created_time := 0, modified_time := 0,
    changed_time := 0, accessed_time := 0, physical_size := 0,
    logical_size := 0, flags := 0, reparse_value := 0, filename_length := 1,
    filename_type := some 1, filename := some [0x58] }

/-! ## Helper lemmas: two's-complement reading of `lsb2signednum` -/

theorem lsb2num_lt (bs : List Nat) (hb : ∀ b ∈ bs, b < 256) :
    lsb2num bs < 2 ^ (8 * bs.length) := by
  induction bs with
  | nil => simp [lsb2num]
  | cons b rest ih =>
    have hb' : b < 256 := hb b (List.mem_cons_self b rest)
    have hr := ih fun x hx => hb x (List.mem_cons_of_mem b hx)
    have hpow : 2 ^ (8 * (b :: rest).length) = 256 * 2 ^ (8 * rest.length) := by
      simp [List.length_cons, Nat.mul_add, Nat.mul_succ, pow_add, pow_succ]
      ring
    rw [hpow]
    simp only [lsb2num]
    omega

theorem lsb2num_map_xor (bs : List Nat) (hb : ∀ b ∈ bs, b < 256) :
    lsb2num (bs.map fun b => b ^^^ 0xFF) = 2 ^ (8 * bs.length) - 1 - lsb2num bs := by
  induction bs with
  | nil => simp [lsb2num]
  | cons b rest ih =>
    have hb' : b < 256 := hb b (List.mem_cons_self b rest)
    have hxor : b ^^^ 0xFF = 255 - b := by
      have : ∀ c < 256, c ^^^ 0xFF = 255 - c := by decide
      exact this b hb'
    have hr := ih fun x hx => hb x (List.mem_cons_of_mem b hx)
    have hlt := lsb2num_lt rest fun x hx => hb x (List.mem_cons_of_mem b hx)
    have hpow : 2 ^ (8 * (b :: rest).length) = 256 * 2 ^ (8 * rest.length) := by
      simp [List.length_cons, Nat.mul_add, Nat.mul_succ, pow_add, pow_succ]
      ring
    rw [hpow]
    simp only [lsb2num, List.map_cons, hxor, hr]
    omega

theorem runsAux_length (es : List Runentry) (last : Int) :
    (Runlist.runsAux es last).length = es.length := by
  induction es generalizing last with
  | nil => rfl
  | cons e rest ih => simp [Runlist.runsAux, ih]

theorem runsAux_zero (es : List Runentry) (last : Int) (e : Runentry)
    (h : es[0]? = some e) :
    (Runlist.runsAux es last)[0]? = some (last + e.offset, e.length) := by
  cases es with
  | nil => simp at h
  | cons x rest =>
    simp at h
    subst h
    simp [Runlist.runsAux]

theorem runsAux_step (es : List Runentry) (last : Int) (i : Nat) (e : Runentry)
    (p : Int × Nat) (he : es[i + 1]? = some e)
    (hp : (Runlist.runsAux es last)[i]? = some p) :
    (Runlist.runsAux es last)[i + 1]? = some (p.1 + e.offset, e.length) := by
  induction es generalizing last i with
  | nil => simp at he
  | cons x rest ih =>
    cases i with
    | zero =>
      simp only [Runlist.runsAux, List.getElem?_cons_zero, Option.some.injEq] at hp
      simp only [List.getElem?_cons_succ] at he
      simp only [Runlist.runsAux, List.getElem?_cons_succ]
      rw [← hp]
      exact runsAux_zero rest (last + x.offset) e he
    | succ j =>
      simp only [List.getElem?_cons_succ] at he
      simp only [Runlist.runsAux, List.getElem?_cons_succ] at hp ⊢
      exact ih (last + x.offset) j he hp

/-- C1: decoding a runlist yields absolute `(volume_offset_in_clusters,
length_in_clusters)` pairs: the first run's offset is the first entry's
signed delta added to 0, each later run's offset is the previous run's
offset plus that entry's signed two's-complement little-endian delta
(`lsb2signednum`, which on byte lists equals the unsigned value minus
`2^(8·width)` when the top bit of the last byte is set), and each run's
count is the unsigned little-endian value of the `length_length`-byte field;
in particular `Runlist.runs` on `0x21 0x18 0x34 0x56 0x00` yields exactly
the single run `(0x5634, 24)`, the trailing zero header byte ending
iteration. -/
theorem runlist_runs_prefix_sum_spec :
    (∀ bs : List Nat, ∀ last : Nat, bs.getLast? = some last →
      (∀ b ∈ bs, b < 256) →
      lsb2signednum bs =
        (lsb2num bs : Int) -
          (if last &&& 0x80 ≠ 0 then (2 : Int) ^ (8 * bs.length) else 0)) ∧
    (∀ buf start len?, (Runlist.runs buf start len?).length =
      (Runlist.entries buf start len?).length) ∧
    (∀ buf start len? e, (Runlist.entries buf start len?)[0]? = some e →
      (Runlist.runs buf start len?)[0]? =
        some (lsb2signednum e.offset_binary, lsb2num e.length_binary)) ∧
    (∀ buf start len? i e p,
      (Runlist.entries buf start len?)[i + 1]? = some e →
      (Runlist.runs buf start len?)[i]? = some p →
      (Runlist.runs buf start len?)[i + 1]? =
        some (p.1 + lsb2signednum e.offset_binary, lsb2num e.length_binary)) ∧
    Runlist.runs [0x21, 0x18, 0x34, 0x56, 0x00] 0 none = [(0x5634, 24)] := by
  refine ⟨?_, ?_, ?_, ?_, by decide⟩
  · intro bs last hlast hb
    have hlt := lsb2num_lt bs hb
    unfold lsb2signednum
    rw [hlast]
    dsimp only
    by_cases hneg : last &&& 0x80 ≠ 0
    · rw [if_pos hneg, if_pos hneg, lsb2num_map_xor bs hb]
      have h1 : 1 ≤ 2 ^ (8 * bs.length) := Nat.one_le_two_pow
      push_cast [Nat.cast_sub (by omega : lsb2num bs ≤ 2 ^ (8 * bs.length) - 1),
        Nat.cast_sub h1]
      ring
    · rw [if_neg hneg, if_neg hneg]
      ring
  · intro buf start len?
    exact runsAux_length _ 0
  · intro buf start len? e he
    have h := runsAux_zero (Runlist.entries buf start len?) 0 e he
    simpa [Runentry.offset, Runentry.length] using h
  · intro buf start len? i e p he hp
    have h := runsAux_step (Runlist.entries buf start len?) 0 i e p he hp
    simpa [Runentry.offset, Runentry.length] using h

/-- Witness for C1: the general theorem applied to the spec's concrete
runlist bytes at index 0. -/
theorem runlist_runs_example_witness :
    (Runlist.entries [0x21, 0x18, 0x34, 0x56, 0x00] 0 none)[0]? =
      some { header := 0x21, length_binary := [0x18],
             offset_binary := [0x34, 0x56] } ∧
    (Runlist.runs [0x21, 0x18, 0x34, 0x56, 0x00] 0 none)[0]? =
      some (0x5634, 24) := by
  constructor
  · decide
  · have h := runlist_runs_prefix_sum_spec.2.2.1 [0x21, 0x18, 0x34, 0x56, 0x00]
      0 none
      { header := 0x21, length_binary := [0x18], offset_binary := [0x34, 0x56] }
      (by decide)
    exact h.trans (by decide)

theorem pack_word_length (buf : List Nat) (off v : Nat) :
    (pack_word buf off v).length = buf.length := by
  simp [pack_word]

theorem getElem?_pack_word_ne (buf : List Nat) (off v j : Nat)
    (h1 : j ≠ off) (h2 : j ≠ off + 1) :
    (pack_word buf off v)[j]? = buf[j]? := by
  unfold pack_word
  rw [List.getElem?_set_ne (by omega), List.getElem?_set_ne (by omega)]

theorem getElem?_pack_word_lo (buf : List Nat) (off v : Nat)
    (h : off < buf.length) :
    (pack_word buf off v)[off]? = some (v % 256) := by
  unfold pack_word
  rw [List.getElem?_set_ne (by omega), List.getElem?_set_eq_of_lt _ h]

theorem getElem?_pack_word_hi (buf : List Nat) (off v : Nat)
    (h : off + 1 < buf.length) :
    (pack_word buf off v)[off + 1]? = some (v >>> 8 % 256) := by
  unfold pack_word
  rw [List.getElem?_set_eq_of_lt]
  rwa [List.length_set]

theorem pack_word_bytes_lt (buf : List Nat) (off v : Nat)
    (hb : ∀ b ∈ buf, b < 256) : ∀ b ∈ pack_word buf off v, b < 256 := by
  intro b hmem
  unfold pack_word at hmem
  rcases List.mem_or_eq_of_mem_set hmem with hmem' | rfl
  · rcases List.mem_or_eq_of_mem_set hmem' with hmem'' | rfl
    · exact hb b hmem''
    · exact Nat.mod_lt _ (by omega)
  · exact Nat.mod_lt _ (by omega)

theorem unpack_word_some (buf : List Nat) (off : Nat)
    (h : off + 2 ≤ buf.length) :
    ∃ w, unpack_word buf off = some w := by
  unfold unpack_word
  rw [List.getElem?_eq_getElem (by omega), List.getElem?_eq_getElem (by omega)]
  exact ⟨_, rfl⟩

theorem unpack_word_lt (buf : List Nat) (off w : Nat)
    (hb : ∀ b ∈ buf, b < 256) (h : unpack_word buf off = some w) :
    w < 65536 := by
  unfold unpack_word at h
  cases hlo : buf[off]? with
  | none => rw [hlo] at h; exact absurd h (by simp)
  | some lo =>
    cases hhi : buf[off + 1]? with
    | none => rw [hlo, hhi] at h; exact absurd h (by simp)
    | some hi =>
      rw [hlo, hhi] at h
      simp only [Option.some.injEq] at h
      have h1 : lo < 256 := hb lo (List.mem_iff_getElem?.2 ⟨off, hlo⟩)
      have h2 : hi < 256 := hb hi (List.mem_iff_getElem?.2 ⟨off + 1, hhi⟩)
      omega

theorem unpack_word_congr (b1 b2 : List Nat) (off : Nat)
    (h1 : b1[off]? = b2[off]?) (h2 : b1[off + 1]? = b2[off + 1]?) :
    unpack_word b1 off = unpack_word b2 off := by
  unfold unpack_word
  rw [h1, h2]

theorem unpack_word_of_bytes (buf : List Nat) (off w : Nat) (hw : w < 65536)
    (hlo : buf[off]? = some (w % 256)) (hhi : buf[off + 1]? = some (w >>> 8 % 256)) :
    unpack_word buf off = some w := by
  unfold unpack_word
  rw [hlo, hhi]
  dsimp only
  have hval : w % 256 + 256 * (w >>> 8 % 256) = w := by
    rw [Nat.shiftRight_eq_div_pow]
    omega
  rw [hval]

/-- Characterization of the fixup loop when the update-sequence array lies
inside the first sector (as NTFS lays it out, and as in every caller of
`fixup` in MFT.py): every iteration succeeds, the buffer keeps its length
and byte bound, bytes away from the processed sector tails are untouched,
and each processed sector tail is overwritten by its replacement word
exactly when it matched the update sequence value. -/
theorem fixupGo_char (S fvo : Nat) :
    ∀ (k i : Nat) (buf : List Nat),
      (∀ b ∈ buf, b < 256) →
      fvo + 2 * (i + k) + 2 ≤ 510 →
      512 * (i + k) ≤ buf.length →
      ∃ R, fixupGo S fvo i k buf = some R ∧
        R.length = buf.length ∧
        (∀ b ∈ R, b < 256) ∧
        (∀ j, (∀ t, i ≤ t → t < i + k →
            j ≠ 512 * (t + 1) - 2 ∧ j ≠ 512 * (t + 1) - 1) →
          R[j]? = buf[j]?) ∧
        (∀ t, i ≤ t → t < i + k →
          ∃ c r, unpack_word buf (512 * (t + 1) - 2) = some c ∧
            unpack_word buf (fvo + 2 + 2 * t) = some r ∧
            (c = S → R[512 * (t + 1) - 2]? = some (r % 256) ∧
                     R[512 * (t + 1) - 1]? = some (r >>> 8 % 256)) ∧
            (c ≠ S → R[512 * (t + 1) - 2]? = buf[512 * (t + 1) - 2]? ∧
                     R[512 * (t + 1) - 1]? = buf[512 * (t + 1) - 1]?)) := by
  intro k
  induction k with
  | zero =>
    intro i buf hb hreg hlen
    exact ⟨buf, rfl, rfl, hb, fun j _ => rfl,
      fun t h1 h2 => absurd h2 (by omega)⟩
  | succ k ih =>
    intro i buf hb hreg hlen
    have htail : 512 * (i + 1) - 2 + 2 ≤ buf.length := by omega
    obtain ⟨c, hc⟩ := unpack_word_some buf (512 * (i + 1) - 2) htail
    have hrepl : fvo + 2 + 2 * i + 2 ≤ buf.length := by omega
    obtain ⟨r, hr⟩ := unpack_word_some buf (fvo + 2 + 2 * i) hrepl
    by_cases hcs : c = S
    · -- the tail word matches: the replacement word is written in place
      have hstep : fixupStep buf S fvo i =
          some (pack_word buf (512 * (i + 1) - 2) r) := by
        unfold fixupStep
        rw [hc, hr]
        simp [hcs]
      have hgo : fixupGo S fvo i (k + 1) buf =
          fixupGo S fvo (i + 1) k (pack_word buf (512 * (i + 1) - 2) r) := by
        conv_lhs => rw [fixupGo]
        rw [hstep]
      have hb' := pack_word_bytes_lt buf (512 * (i + 1) - 2) r hb
      have hlen' : 512 * ((i + 1) + k) ≤
          (pack_word buf (512 * (i + 1) - 2) r).length := by
        rw [pack_word_length]
        omega
      obtain ⟨R, hR, hRlen, hRb, hRpres, hRchar⟩ :=
        ih (i + 1) (pack_word buf (512 * (i + 1) - 2) r) hb' (by omega) hlen'
      refine ⟨R, hgo.trans hR, hRlen.trans (pack_word_length _ _ _), hRb, ?_, ?_⟩
      · intro j hj
        have h1 : R[j]? = (pack_word buf (512 * (i + 1) - 2) r)[j]? :=
          hRpres j fun t ht1 ht2 => hj t (by omega) (by omega)
        have hji := hj i (by omega) (by omega)
        rw [h1, getElem?_pack_word_ne buf _ r j hji.1 (by omega)]
      · intro t ht1 ht2
        by_cases hti : t = i
        · subst hti
          refine ⟨c, r, hc, hr, fun _ => ?_, fun hne => absurd hcs hne⟩
          have hlo : R[512 * (t + 1) - 2]? =
              (pack_word buf (512 * (t + 1) - 2) r)[512 * (t + 1) - 2]? :=
            hRpres _ fun u hu1 hu2 => by constructor <;> omega
          have hhi : R[512 * (t + 1) - 2 + 1]? =
              (pack_word buf (512 * (t + 1) - 2) r)[512 * (t + 1) - 2 + 1]? :=
            hRpres _ fun u hu1 hu2 => by constructor <;> omega
          have e1 : 512 * (t + 1) - 1 = 512 * (t + 1) - 2 + 1 := by omega
          constructor
          · rw [hlo, getElem?_pack_word_lo _ _ _ (by omega)]
          · rw [e1, hhi, getElem?_pack_word_hi _ _ _ (by omega)]
        · obtain ⟨c', r', hc', hr', himp1, himp2⟩ :=
            hRchar t (by omega) (by omega)
          have ec : unpack_word (pack_word buf (512 * (i + 1) - 2) r)
              (512 * (t + 1) - 2) = unpack_word buf (512 * (t + 1) - 2) :=
            unpack_word_congr _ _ _
              (getElem?_pack_word_ne _ _ _ _ (by omega) (by omega))
              (getElem?_pack_word_ne _ _ _ _ (by omega) (by omega))
          have er : unpack_word (pack_word buf (512 * (i + 1) - 2) r)
              (fvo + 2 + 2 * t) = unpack_word buf (fvo + 2 + 2 * t) :=
            unpack_word_congr _ _ _
              (getElem?_pack_word_ne _ _ _ _ (by omega) (by omega))
              (getElem?_pack_word_ne _ _ _ _ (by omega) (by omega))
          have elo : (pack_word buf (512 * (i + 1) - 2) r)[512 * (t + 1) - 2]? =
              buf[512 * (t + 1) - 2]? :=
            getElem?_pack_word_ne _ _ _ _ (by omega) (by omega)
          have ehi : (pack_word buf (512 * (i + 1) - 2) r)[512 * (t + 1) - 1]? =
              buf[512 * (t + 1) - 1]? :=
            getElem?_pack_word_ne _ _ _ _ (by omega) (by omega)
          refine ⟨c', r', ec ▸ hc', er ▸ hr', himp1, fun hne => ?_⟩
          obtain ⟨hx, hy⟩ := himp2 hne
          exact ⟨hx.trans elo, hy.trans ehi⟩
    · -- the tail word does not match: the buffer is left unchanged
      have hstep : fixupStep buf S fvo i = some buf := by
        unfold fixupStep
        rw [hc]
        dsimp only
        rw [if_pos hcs]
      have hgo : fixupGo S fvo i (k + 1) buf = fixupGo S fvo (i + 1) k buf := by
        conv_lhs => rw [fixupGo]
        rw [hstep]
      obtain ⟨R, hR, hRlen, hRb, hRpres, hRchar⟩ :=
        ih (i + 1) buf hb (by omega) (by omega)
      refine ⟨R, hgo.trans hR, hRlen, hRb, ?_, ?_⟩
      · intro j hj
        exact hRpres j fun t ht1 ht2 => hj t (by omega) (by omega)
      · intro t ht1 ht2
        by_cases hti : t = i
        · subst hti
          refine ⟨c, r, hc, hr, fun heq => absurd heq hcs, fun _ => ?_⟩
          constructor
          · exact hRpres _ fun u hu1 hu2 => by constructor <;> omega
          · exact hRpres _ fun u hu1 hu2 => by constructor <;> omega
        · exact hRchar t (by omega) (by omega)

theorem c2ExampleBuf_bytes : ∀ b ∈ c2ExampleBuf, b < 256 := by
  intro b hb
  rw [c2ExampleBuf] at hb
  obtain ⟨j, hj, rfl⟩ := List.mem_map.1 hb
  unfold c2ExampleByte
  repeat' split
  all_goals omega

theorem c2ExampleBuf_length : c2ExampleBuf.length = 1024 := by
  rw [c2ExampleBuf, List.length_map, List.length_range]

/-- `FixupBlock.fixup` characterized against the initial buffer, for blocks
whose update-sequence array lies within the first sector. -/
theorem fixup_usa_first_sector_char (buf : List Nat) (n fvo : Nat)
    (hb : ∀ b ∈ buf, b < 256) (hn : 1 ≤ n) (hreg : fvo + 2 * n ≤ 510)
    (hs : fvo + 2 ≤ buf.length) (hlen : 512 * (n - 1) ≤ buf.length) :
    ∃ S R, unpack_word buf fvo = some S ∧
      FixupBlock.fixup buf n fvo = some R ∧
      R.length = buf.length ∧
      (∀ b ∈ R, b < 256) ∧
      (∀ j, (∀ i, i < n - 1 → j ≠ 512 * (i + 1) - 2 ∧ j ≠ 512 * (i + 1) - 1) →
        R[j]? = buf[j]?) ∧
      (∀ i, i < n - 1 →
        ∃ c r, unpack_word buf (512 * (i + 1) - 2) = some c ∧
          unpack_word buf (fvo + 2 + 2 * i) = some r ∧
          (c = S → R[512 * (i + 1) - 2]? = some (r % 256) ∧
                   R[512 * (i + 1) - 1]? = some (r >>> 8 % 256)) ∧
          (c ≠ S → R[512 * (i + 1) - 2]? = buf[512 * (i + 1) - 2]? ∧
                   R[512 * (i + 1) - 1]? = buf[512 * (i + 1) - 1]?)) := by
  obtain ⟨S, hS⟩ := unpack_word_some buf fvo hs
  obtain ⟨R, hR, h1, h2, h3, h4⟩ :=
    fixupGo_char S fvo (n - 1) 0 buf hb (by omega) (by omega)
  refine ⟨S, R, hS, ?_, h1, h2, ?_, ?_⟩
  · unfold FixupBlock.fixup
    rw [hS]
    exact hR
  · intro j hj
    exact h3 j fun t ht1 ht2 => hj t (by omega)
  · intro i hi
    exact h4 i (by omega) (by omega)

/-- C2 (amended): for every multi-sector block whose update-sequence array
(sentinel word and replacement words at `usa_offset`) lies within the first
sector — as NTFS lays it out and as in the claim's example — fixup reads the
sentinel word at `usa_offset` and, for each `i < usa_count − 1`, overwrites
the word at `512·(i+1) − 2` with the replacement word at
`usa_offset + 2 + 2·i` when it equals the sentinel and otherwise leaves it
unchanged (non-fatally), touching no other bytes; in particular the 1024-byte
example record — with the placeholders stored as the little-endian encoding
`0xEF 0xBE` of the sentinel word `0xBEEF` at `0x1FE` and `0x3FE` — has bytes
`0x22 0x11` at `0x1FE` and `0x44 0x33` at `0x3FE` after fixup.  (The claim's
literal placeholder bytes `0xBE 0xEF` encode the word `0xEFBE ≠ 0xBEEF`, so
on them fixup changes nothing: see the counterexample theorem.) -/
theorem fixup_sentinel_replacement_spec :
    (∀ buf n fvo, (∀ b ∈ buf, b < 256) → 1 ≤ n → fvo + 2 * n ≤ 510 →
      fvo + 2 ≤ buf.length → 512 * (n - 1) ≤ buf.length →
      ∃ S R, unpack_word buf fvo = some S ∧
        FixupBlock.fixup buf n fvo = some R ∧
        (∀ j, (∀ i, i < n - 1 → j ≠ 512 * (i + 1) - 2 ∧ j ≠ 512 * (i + 1) - 1) →
          R[j]? = buf[j]?) ∧
        (∀ i, i < n - 1 →
          ∃ c r, unpack_word buf (512 * (i + 1) - 2) = some c ∧
            unpack_word buf (fvo + 2 + 2 * i) = some r ∧
            unpack_word R (512 * (i + 1) - 2) =
              some (if c = S then r else c))) ∧
    (∃ R, FixupBlock.fixup c2ExampleBuf 3 0x30 = some R ∧
      R[0x1FE]? = some 0x22 ∧ R[0x1FF]? = some 0x11 ∧
      R[0x3FE]? = some 0x44 ∧ R[0x3FF]? = some 0x33) := by
  constructor
  · intro buf n fvo hb hn hreg hs hlen
    obtain ⟨S, R, hS, hR, hrl, hrb, hpres, hchar⟩ :=
      fixup_usa_first_sector_char buf n fvo hb hn hreg hs hlen
    refine ⟨S, R, hS, hR, hpres, ?_⟩
    intro i hi
    obtain ⟨c, r, hc, hr, himp1, himp2⟩ := hchar i hi
    have e1 : 512 * (i + 1) - 1 = 512 * (i + 1) - 2 + 1 := by omega
    refine ⟨c, r, hc, hr, ?_⟩
    by_cases hcS : c = S
    · obtain ⟨hb1, hb2⟩ := himp1 hcS
      have hw : r < 65536 := unpack_word_lt buf _ r hb hr
      rw [if_pos hcS]
      exact unpack_word_of_bytes R _ r hw hb1 (e1 ▸ hb2)
    · obtain ⟨hb1, hb2⟩ := himp2 hcS
      rw [if_neg hcS]
      rw [unpack_word_congr R buf _ hb1 (e1 ▸ hb2)]
      exact hc
  · decide

/-- Counterexample for C2's literal example: with the placeholder *bytes*
`0xBE 0xEF` at offsets `0x1FE` and `0x3FE` as stated, the tail words read
`0xEFBE`, do not match the sentinel word `0xBEEF`, and fixup returns the
buffer unchanged — the bytes at `0x1FE` stay `0xBE 0xEF`, not `0x22 0x11`. -/
theorem fixup_claim_literal_example_cex :
    FixupBlock.fixup c2ClaimBuf 3 0x30 = some c2ClaimBuf ∧
    c2ClaimBuf[0x1FE]? = some 0xBE ∧ c2ClaimBuf[0x3FE]? = some 0xBE ∧
    (some 0xBE : Option Nat) ≠ some 0x22 := by
  refine ⟨by decide, by decide, by decide, by decide⟩

/-- Witness for C2: the general part of the amended theorem applied to the
concrete example record. -/
theorem fixup_sentinel_replacement_witness :
    (∀ b ∈ c2ExampleBuf, b < 256) ∧
    (∃ S R, unpack_word c2ExampleBuf 0x30 = some S ∧
      FixupBlock.fixup c2ExampleBuf 3 0x30 = some R ∧
      (∀ j, (∀ i, i < 3 - 1 → j ≠ 512 * (i + 1) - 2 ∧ j ≠ 512 * (i + 1) - 1) →
        R[j]? = c2ExampleBuf[j]?) ∧
      (∀ i, i < 3 - 1 →
        ∃ c r, unpack_word c2ExampleBuf (512 * (i + 1) - 2) = some c ∧
          unpack_word c2ExampleBuf (0x30 + 2 + 2 * i) = some r ∧
          unpack_word R (512 * (i + 1) - 2) =
            some (if c = S then r else c))) :=
  ⟨c2ExampleBuf_bytes, fixup_sentinel_replacement_spec.1 c2ExampleBuf 3 0x30
    c2ExampleBuf_bytes (by omega) (by omega)
    (by rw [c2ExampleBuf_length]; omega) (by rw [c2ExampleBuf_length])⟩

/-- C7 (amended): fixup is idempotent on every record whose update-sequence
array lies within the first sector (`usa_offset + 2·usa_count ≤ 510`, the
layout of every real multi-sector NTFS record): applying it a second time
with the same `usa_count` and `usa_offset` returns the once-fixed bytes
unchanged.  (For adversarial buffers whose array overlaps a sector tail a
second application can change bytes: see the counterexample theorem.) -/
theorem fixup_idempotent_usa_first_sector :
    ∀ (buf : List Nat) (n fvo : Nat) (R : List Nat),
      (∀ b ∈ buf, b < 256) → 1 ≤ n → fvo + 2 * n ≤ 510 →
      fvo + 2 ≤ buf.length → 512 * (n - 1) ≤ buf.length →
      FixupBlock.fixup buf n fvo = some R →
      FixupBlock.fixup R n fvo = some R := by
  intro buf n fvo R hb hn hreg hs hlen hfix
  obtain ⟨S, R', hS, hR', hrl, hrb, hpres, hchar⟩ :=
    fixup_usa_first_sector_char buf n fvo hb hn hreg hs hlen
  have hRR : R' = R := Option.some.inj (hR'.symm.trans hfix)
  subst hRR
  obtain ⟨S₂, R₂, hS₂, hR₂, hrl₂, hrb₂, hpres₂, hchar₂⟩ :=
    fixup_usa_first_sector_char R' n fvo hrb hn hreg (by omega) (by omega)
  have hSfvo : unpack_word R' fvo = unpack_word buf fvo :=
    unpack_word_congr _ _ _
      (hpres fvo fun i hi => by constructor <;> omega)
      (hpres (fvo + 1) fun i hi => by constructor <;> omega)
  have hSS : S = S₂ := by
    rw [hSfvo, hS] at hS₂
    exact Option.some.inj hS₂
  subst hSS
  suffices hfinal : R₂ = R' by
    rw [hR₂, hfinal]
  apply List.ext_getElem?
  intro j
  by_cases hj : ∃ i, i < n - 1 ∧ (j = 512 * (i + 1) - 2 ∨ j = 512 * (i + 1) - 1)
  · obtain ⟨i, hi, hji⟩ := hj
    obtain ⟨c, r, hc, hr, himp1, himp2⟩ := hchar i hi
    obtain ⟨c', r', hc', hr', himp1', himp2'⟩ := hchar₂ i hi
    have her : unpack_word R' (fvo + 2 + 2 * i) = unpack_word buf (fvo + 2 + 2 * i) :=
      unpack_word_congr _ _ _
        (hpres _ fun u hu => by constructor <;> omega)
        (hpres _ fun u hu => by constructor <;> omega)
    have hrr : r' = r := by
      rw [her, hr] at hr'
      exact (Option.some.inj hr').symm
    have e1 : 512 * (i + 1) - 1 = 512 * (i + 1) - 2 + 1 := by omega
    by_cases hcS : c = S
    · obtain ⟨hb1, hb2⟩ := himp1 hcS
      have hw : r < 65536 := unpack_word_lt buf _ r hb hr
      have hcR : unpack_word R' (512 * (i + 1) - 2) = some r :=
        unpack_word_of_bytes R' _ r hw hb1 (e1 ▸ hb2)
      have hcc : c' = r := by
        rw [hcR] at hc'
        exact (Option.some.inj hc').symm
      by_cases hrS : r = S
      · obtain ⟨hb1', hb2'⟩ := himp1' (by rw [hcc]; exact hrS)
        rcases hji with hji | hji
        · rw [hji, hb1', hb1, hrr]
        · rw [hji, hb2', hb2, hrr]
      · obtain ⟨hb1', hb2'⟩ := himp2' (by rw [hcc]; exact hrS)
        rcases hji with hji | hji
        · rw [hji]
          exact hb1'
        · rw [hji]
          exact hb2'
    · obtain ⟨hb1, hb2⟩ := himp2 hcS
      have hcR : unpack_word R' (512 * (i + 1) - 2) =
          unpack_word buf (512 * (i + 1) - 2) :=
        unpack_word_congr _ _ _ hb1 (e1 ▸ hb2)
      have hcc : c' = c := by
        rw [hcR, hc] at hc'
        exact (Option.some.inj hc').symm
      obtain ⟨hb1', hb2'⟩ := himp2' (by rw [hcc]; exact hcS)
      rcases hji with hji | hji
      · rw [hji]
        exact hb1'
      · rw [hji]
        exact hb2'
  · push_neg at hj
    exact hpres₂ j fun i hi => hj i hi

/-- Counterexample for C7 as universally stated: on the adversarial buffer
whose update-sequence array overlaps the tail of sector 1, applying fixup
twice differs from applying it once (byte 510 changes from `0xAA` to `0xBB`
on the second application). -/
theorem fixup_not_idempotent_cex :
    (FixupBlock.fixup c7CexBuf 3 1020).bind
      (fun b => FixupBlock.fixup b 3 1020) ≠ FixupBlock.fixup c7CexBuf 3 1020 ∧
    (FixupBlock.fixup c7CexBuf 3 1020).isSome = true := by
  refine ⟨by decide, by decide⟩

/-- Witness for C7: idempotence on the concrete in-layout example record. -/
theorem fixup_idempotent_witness :
    (FixupBlock.fixup c2ExampleBuf 3 0x30).bind
      (fun b => FixupBlock.fixup b 3 0x30) = FixupBlock.fixup c2ExampleBuf 3 0x30 := by
  cases h : FixupBlock.fixup c2ExampleBuf 3 0x30 with
  | none => rfl
  | some R =>
    show FixupBlock.fixup R 3 0x30 = some R
    exact fixup_idempotent_usa_first_sector c2ExampleBuf 3 0x30 R
      c2ExampleBuf_bytes (by omega) (by omega)
      (by rw [c2ExampleBuf_length]; omega) (by rw [c2ExampleBuf_length]) h

theorem slackCandidate_valid_elim (buf : List Nat) (off : Nat)
    (e : SlackIndexEntryView)
    (h : slackCandidate buf off = SlackOutcome.valid e) :
    e.offset = off ∧ unpack_word buf (off + 0x8) = some e.length ∧
    unpack_word buf (off + 0xA) = some e.filename_information_length ∧
    parseFilenameAttribute buf (off + 0x10) = some e.fn ∧
    SlackIndexEntry.is_valid e.fn = true := by
  unfold slackCandidate at h
  cases h8 : unpack_word buf (off + 0x8) with
  | none =>
    rw [h8] at h
    cases hA : unpack_word buf (off + 0xA) <;> rw [hA] at h <;> simp at h
  | some len =>
    rw [h8] at h
    cases hA : unpack_word buf (off + 0xA) with
    | none => rw [hA] at h; simp at h
    | some fil =>
      rw [hA] at h
      cases hP : parseFilenameAttribute buf (off + 0x10) with
      | none => rw [hP] at h; simp at h
      | some fn =>
        rw [hP] at h
        dsimp only at h
        by_cases hV : SlackIndexEntry.is_valid fn = true
        · rw [if_pos hV] at h
          injection h with h
          subst h
          exact ⟨rfl, rfl, rfl, rfl, hV⟩
        · rw [if_neg hV] at h
          simp at h

theorem slack_is_valid_bounds (fn : FilenameAttribute)
    (h : SlackIndexEntry.is_valid fn = true) :
    (parse_filetime fn.created_time).isSome = true ∧
    (parse_filetime fn.modified_time).isSome = true ∧
    (parse_filetime fn.changed_time).isSome = true ∧
    (parse_filetime fn.accessed_time).isSome = true ∧
    (FILETIME_1990 < fn.created_time ∧ fn.created_time < FILETIME_2025) ∧
    (FILETIME_1990 < fn.modified_time ∧ fn.modified_time < FILETIME_2025) ∧
    (FILETIME_1990 < fn.changed_time ∧ fn.changed_time < FILETIME_2025) ∧
    (FILETIME_1990 < fn.accessed_time ∧ fn.accessed_time < FILETIME_2025) := by
  unfold SlackIndexEntry.is_valid at h
  by_cases h1 : fn.modified_time < FILETIME_10000
  · by_cases h2 : fn.accessed_time < FILETIME_10000
    · by_cases h3 : fn.changed_time < FILETIME_10000
      · by_cases h4 : fn.created_time < FILETIME_10000
        · simp only [parse_filetime, if_pos h1, if_pos h2, if_pos h3,
            if_pos h4] at h
          simp only [Bool.and_eq_true, decide_eq_true_eq] at h
          refine ⟨by simp [parse_filetime, h4], by simp [parse_filetime, h1],
            by simp [parse_filetime, h3], by simp [parse_filetime, h2],
            ⟨by omega, by omega⟩, ⟨by omega, by omega⟩,
            ⟨by omega, by omega⟩, ⟨by omega, by omega⟩⟩
        · simp [parse_filetime, h1, h2, h3, h4] at h
      · simp [parse_filetime, h1, h2, h3] at h
    · simp [parse_filetime, h1, h2] at h
  · simp [parse_filetime, h1] at h

theorem slackScanAux_mem (buf : List Nat) (allocEnd : Nat) :
    ∀ (fuel off : Nat) (e : SlackIndexEntryView),
      e ∈ slackScanAux buf allocEnd fuel off →
      slackCandidate buf e.offset = SlackOutcome.valid e := by
  intro fuel
  induction fuel with
  | zero =>
    intro off e he
    simp [slackScanAux] at he
  | succ f ih =>
    intro off e he
    rw [slackScanAux] at he
    cases hstep : slackStep buf allocEnd off with
    | none => rw [hstep] at he; simp at he
    | some p =>
      rw [hstep] at he
      obtain ⟨oe, next⟩ := p
      simp only [List.mem_append] at he
      rcases he with he | he
      · unfold slackStep at hstep
        by_cases hcond : (off : Int) ≤ (allocEnd : Int) - 0x52
        · rw [if_pos hcond] at hstep
          cases hcand : slackCandidate buf off with
          | overrun => rw [hcand] at hstep; simp at hstep
          | invalid =>
            rw [hcand] at hstep
            simp only [Option.some.injEq, Prod.mk.injEq] at hstep
            rw [← hstep.1] at he
            simp at he
          | valid e' =>
            rw [hcand] at hstep
            simp only [Option.some.injEq, Prod.mk.injEq] at hstep
            rw [← hstep.1] at he
            simp only [Option.toList_some, List.mem_singleton] at he
            subst he
            have hoff := (slackCandidate_valid_elim buf off e hcand).1
            rw [hoff]
            exact hcand
        · rw [if_neg hcond] at hstep; simp at hstep
      · exact ih next e he

/-- C3: every entry yielded by the slack-recovery scan of an index node
parses its embedded `FilenameAttribute`, whose four timestamps (created,
modified, changed, accessed) all convert without error and lie strictly
between 1990-01-01T00:00:00Z and 2025-01-01T00:00:00Z, both bounds
exclusive; an entry whose timestamp conversion errors is never yielded. -/
theorem slack_entries_timestamp_window :
    ∀ (buf : List Nat) (base : Nat) (l : List SlackIndexEntryView)
      (e : SlackIndexEntryView),
      NTATTR_STANDARD_INDEX_HEADER.slack_entries buf base = some l →
      e ∈ l →
      parseFilenameAttribute buf (e.offset + 0x10) = some e.fn ∧
      (parse_filetime e.fn.created_time).isSome = true ∧
      (parse_filetime e.fn.modified_time).isSome = true ∧
      (parse_filetime e.fn.changed_time).isSome = true ∧
      (parse_filetime e.fn.accessed_time).isSome = true ∧
      (FILETIME_1990 < e.fn.created_time ∧ e.fn.created_time < FILETIME_2025) ∧
      (FILETIME_1990 < e.fn.modified_time ∧ e.fn.modified_time < FILETIME_2025) ∧
      (FILETIME_1990 < e.fn.changed_time ∧ e.fn.changed_time < FILETIME_2025) ∧
      (FILETIME_1990 < e.fn.accessed_time ∧ e.fn.accessed_time < FILETIME_2025) := by
  intro buf base l e hl he
  unfold NTATTR_STANDARD_INDEX_HEADER.slack_entries at hl
  cases hle : unpack_dword buf (base + 0x4) with
  | none => rw [hle] at hl; simp at hl
  | some le =>
    rw [hle] at hl
    cases hae : unpack_dword buf (base + 0x8) with
    | none => rw [hae] at hl; simp at hl
    | some ae =>
      rw [hae] at hl
      injection hl with hl
      subst hl
      have hcand := slackScanAux_mem buf ae (ae + 1) le e he
      obtain ⟨hoff, h8, hA, hP, hV⟩ := slackCandidate_valid_elim buf e.offset e hcand
      obtain ⟨a1, a2, a3, a4, b1, b2, b3, b4⟩ := slack_is_valid_bounds e.fn hV
      exact ⟨hP, a1, a2, a3, a4, b1, b2, b3, b4⟩

/-- Witness for C3: the theorem applied to the concrete slack buffer. -/
theorem slack_entries_window_witness :
    NTATTR_STANDARD_INDEX_HEADER.slack_entries c3DemoBuf 0 = some [c3DemoEntry] ∧
    parseFilenameAttribute c3DemoBuf (c3DemoEntry.offset + 0x10) =
      some c3DemoEntry.fn ∧
    FILETIME_1990 < c3DemoEntry.fn.created_time ∧
    c3DemoEntry.fn.created_time < FILETIME_2025 := by
  have h := slack_entries_timestamp_window c3DemoBuf 0 [c3DemoEntry] c3DemoEntry
    (by decide) (by decide)
  exact ⟨by decide, h.1, h.2.2.2.2.2.1.1, h.2.2.2.2.2.1.2⟩

theorem slackStep_progress (buf : List Nat) (allocEnd off : Nat)
    (oe : Option SlackIndexEntryView) (next : Nat)
    (h : slackStep buf allocEnd off = some (oe, next)) :
    off < next ∧ ((oe = none ∧ next = off + 1) ∨
      (∃ e, oe = some e ∧ next = off + max e.length 1)) := by
  unfold slackStep at h
  by_cases hcond : (off : Int) ≤ (allocEnd : Int) - 0x52
  · rw [if_pos hcond] at h
    cases hcand : slackCandidate buf off with
    | overrun => rw [hcand] at h; simp at h
    | invalid =>
      rw [hcand] at h
      simp only [Option.some.injEq, Prod.mk.injEq] at h
      exact ⟨by omega, Or.inl ⟨h.1.symm, h.2.symm⟩⟩
    | valid e =>
      rw [hcand] at h
      simp only [Option.some.injEq, Prod.mk.injEq] at h
      have hmax : (if e.length = 0 then 1 else e.length) = max e.length 1 := by
        split <;> omega
      refine ⟨by omega, Or.inr ⟨e, h.1.symm, ?_⟩⟩
      rw [← h.2, hmax]
  · rw [if_neg hcond] at h; simp at h

theorem slackStep_none_iff (buf : List Nat) (allocEnd off : Nat) :
    slackStep buf allocEnd off = none ↔
      ((allocEnd : Int) - 0x52 < (off : Int) ∨
        slackCandidate buf off = SlackOutcome.overrun) := by
  unfold slackStep
  by_cases hcond : (off : Int) ≤ (allocEnd : Int) - 0x52
  · rw [if_pos hcond]
    cases hcand : slackCandidate buf off with
    | overrun => simp [hcand]
    | invalid => simp [hcand]; omega
    | valid e => simp [hcand]; omega
  · rw [if_neg hcond]
    simp only [true_iff]
    left
    omega

theorem slackScanAux_succ (buf : List Nat) (allocEnd : Nat) :
    ∀ (f off : Nat), allocEnd + 1 ≤ off + f →
      slackScanAux buf allocEnd (f + 1) off = slackScanAux buf allocEnd f off := by
  intro f
  induction f with
  | zero =>
    intro off h
    have hstep : slackStep buf allocEnd off = none := by
      unfold slackStep
      rw [if_neg (by omega)]
    simp [slackScanAux, hstep]
  | succ f ih =>
    intro off h
    conv_lhs => rw [slackScanAux]
    conv_rhs => rw [slackScanAux]
    cases hstep : slackStep buf allocEnd off with
    | none => rfl
    | some p =>
      obtain ⟨oe, next⟩ := p
      have hlt := (slackStep_progress buf allocEnd off oe next hstep).1
      dsimp only
      rw [ih next (by omega)]

theorem slackScanAux_add (buf : List Nat) (allocEnd : Nat) :
    ∀ (d f off : Nat), allocEnd + 1 ≤ off + f →
      slackScanAux buf allocEnd (f + d) off = slackScanAux buf allocEnd f off := by
  intro d
  induction d with
  | zero => intro f off h; rfl
  | succ d ih =>
    intro f off h
    have he : f + (d + 1) = (f + d) + 1 := by omega
    rw [he, slackScanAux_succ buf allocEnd (f + d) off (by omega), ih f off h]

/-- C9: the slack-recovery scan always makes forward progress and terminates
on every finite buffer: each loop iteration strictly increases the cursor —
by `max(length, 1)` when a valid entry is yielded (a zero declared length
still advances one byte) and by exactly one byte when the candidate is
invalid or fails to parse — the scan ends (rather than erroring) exactly
when the cursor passes `entry_list_allocation_end − 0x52` or the candidate's
header read overruns the buffer, and `allocEnd + 1 − off` iterations always
suffice: any fuel at least that large computes the same entry list. -/
theorem slack_scan_progress_and_termination :
    (∀ (buf : List Nat) (allocEnd off : Nat)
      (oe : Option SlackIndexEntryView) (next : Nat),
      slackStep buf allocEnd off = some (oe, next) →
      off < next ∧ ((oe = none ∧ next = off + 1) ∨
        (∃ e, oe = some e ∧ next = off + max e.length 1))) ∧
    (∀ (buf : List Nat) (allocEnd off : Nat),
      slackStep buf allocEnd off = none ↔
        ((allocEnd : Int) - 0x52 < (off : Int) ∨
          slackCandidate buf off = SlackOutcome.overrun)) ∧
    (∀ (buf : List Nat) (allocEnd f off : Nat), allocEnd + 1 ≤ off + f →
      slackScanAux buf allocEnd f off = slackScan buf off allocEnd) := by
  refine ⟨slackStep_progress, slackStep_none_iff, ?_⟩
  intro buf allocEnd f off h
  unfold slackScan
  rcases Nat.le_total f (allocEnd + 1) with hf | hf
  · have he : allocEnd + 1 = f + (allocEnd + 1 - f) := by omega
    rw [he, slackScanAux_add buf allocEnd (allocEnd + 1 - f) f off h]
  · have he : f = (allocEnd + 1) + (f - (allocEnd + 1)) := by omega
    rw [he, slackScanAux_add buf allocEnd (f - (allocEnd + 1)) (allocEnd + 1)
      off (by omega)]

/-- Witness for C9: one concrete invalid candidate advances the cursor by
exactly one byte. -/
theorem slack_scan_progress_witness :
    slackStep c9DemoBuf 0x60 0 = some (none, 1) ∧ (0 : Nat) < 1 :=
  ⟨by decide,
    (slack_scan_progress_and_termination.1 c9DemoBuf 0x60 0 none 1 (by decide)).1⟩

theorem Attribute.size_mod_eight (a : Attribute) : a.size % 8 = 0 := by
  unfold Attribute.size
  omega

theorem parseAttribute_elim (buf : List Nat) (off : Nat) (a : Attribute)
    (h : parseAttribute buf off = some a) :
    a.offset = off ∧ unpack_dword buf off = some a.type ∧
    unpack_dword buf (off + 4) = some a.declaredSize := by
  unfold parseAttribute at h
  cases ht : unpack_dword buf off with
  | none => rw [ht] at h; simp at h
  | some t =>
    rw [ht] at h
    cases hs : unpack_dword buf (off + 4) with
    | none => rw [hs] at h; simp at h
    | some s =>
      rw [hs] at h
      cases hn : unpack_byte buf (off + 8) with
      | none => rw [hn] at h; simp at h
      | some nr =>
        rw [hn] at h
        simp only [Option.bind_eq_bind, Option.some_bind] at h
        by_cases hnr : nr > 0
        · rw [if_pos hnr] at h
          injection h with h
          subst h
          exact ⟨rfl, rfl, rfl⟩
        · rw [if_neg hnr] at h
          cases hvl : unpack_dword buf (off + 0x10) with
          | none => rw [hvl] at h; simp at h
          | some vl =>
            rw [hvl] at h
            cases hvo : unpack_word buf (off + 0x14) with
            | none => rw [hvo] at h; simp at h
            | some vo =>
              rw [hvo] at h
              simp only [Option.bind_eq_bind, Option.some_bind] at h
              injection h with h
              subst h
              exact ⟨rfl, rfl, rfl⟩

/-- C4 (amended): for every attribute `a` yielded by `MFTRecord.attributes`
on a record at base 0: `a.size()` is a multiple of 8 and `a.offset` plus the
attribute's *declared* size dword is at most `bytes_in_use` (hence
`a.offset + a.size() ≤ bytes_in_use + 8`, but `a.offset + a.size()` itself
can exceed `bytes_in_use`, because `size()` rounds the declared dword up —
adding a full 8 when it is already 8-aligned — while the loop guard checks
the unrounded dword; see the counterexample); iteration stops when the dword
at the cursor is 0 or 0xFFFFFFFF or when the declared size would exceed
`bytes_in_use`, starts at the given cursor, and each yielded attribute
advances the cursor by exactly `a.size()`. -/
theorem mft_attributes_iteration_spec :
    ∀ (buf : List Nat) (biu fuel off : Nat) (l : List Attribute),
      MFTRecord.attributesAux buf biu fuel off = some l →
      (∀ a ∈ l, a.size % 8 = 0 ∧ a.offset + a.declaredSize ≤ biu ∧
        a.offset + a.size ≤ biu + 8 ∧
        unpack_dword buf a.offset = some a.type ∧
        unpack_dword buf (a.offset + 4) = some a.declaredSize ∧
        a.type ≠ 0 ∧ a.type ≠ 0xFFFFFFFF) ∧
      (∀ (i : Nat) (a a' : Attribute), l[i]? = some a → l[i + 1]? = some a' →
        a'.offset = a.offset + a.size) ∧
      (∀ a, l[0]? = some a → a.offset = off) := by
  intro buf biu fuel
  induction fuel with
  | zero =>
    intro off l h
    injection h with h
    subst h
    refine ⟨by simp, by simp, by simp⟩
  | succ fuel ih =>
    intro off l h
    rw [MFTRecord.attributesAux] at h
    cases ht : unpack_dword buf off with
    | none => rw [ht] at h; simp at h
    | some t =>
      rw [ht] at h
      simp only [Option.bind_eq_bind, Option.some_bind] at h
      by_cases hsent : t = 0 ∨ t = 0xFFFFFFFF
      · rw [if_pos hsent] at h
        injection h with h
        subst h
        refine ⟨by simp, by simp, by simp⟩
      · rw [if_neg hsent] at h
        cases hs : unpack_dword buf (off + 4) with
        | none => rw [hs] at h; simp at h
        | some s =>
          rw [hs] at h
          simp only [Option.bind_eq_bind, Option.some_bind] at h
          by_cases hbound : off + s ≤ biu
          · rw [if_pos hbound] at h
            cases hp : parseAttribute buf off with
            | none => rw [hp] at h; simp at h
            | some a =>
              rw [hp] at h
              simp only [Option.bind_eq_bind, Option.some_bind] at h
              cases hrest : MFTRecord.attributesAux buf biu fuel (off + a.size) with
              | none => rw [hrest] at h; simp at h
              | some rest =>
                rw [hrest] at h
                simp only [Option.bind_eq_bind, Option.some_bind] at h
                injection h with h
                subst h
                obtain ⟨hoff, hta, hsa⟩ := parseAttribute_elim buf off a hp
                have hsa' : a.declaredSize = s := by
                  rw [hs] at hsa
                  exact (Option.some.inj hsa).symm
                obtain ⟨ih1, ih2, ih3⟩ := ih (off + a.size) rest hrest
                refine ⟨?_, ?_, ?_⟩
                · intro x hx
                  rcases List.mem_cons.1 hx with hx | hx
                  · subst hx
                    refine ⟨Attribute.size_mod_eight x, ?_, ?_, ?_, ?_, ?_, ?_⟩
                    · rw [hoff, hsa']; exact hbound
                    · have : x.size ≤ x.declaredSize + 8 := by
                        unfold Attribute.size; omega
                      omega
                    · rw [hoff]; exact hta
                    · rw [hoff]; exact hsa
                    · intro he
                      exact hsent (Or.inl ((Option.some.inj
                        (ht.symm.trans hta)).trans he))
                    · intro he
                      exact hsent (Or.inr ((Option.some.inj
                        (ht.symm.trans hta)).trans he))
                  · exact ih1 x hx
                · intro i x x' hxi hxi'
                  cases i with
                  | zero =>
                    simp only [List.getElem?_cons_zero, Option.some.injEq] at hxi
                    simp only [List.getElem?_cons_succ] at hxi'
                    subst hxi
                    rw [ih3 x' hxi', hoff]
                  | succ j =>
                    simp only [List.getElem?_cons_succ] at hxi hxi'
                    exact ih2 j x x' hxi hxi'
                · intro x hx
                  simp only [List.getElem?_cons_zero, Option.some.injEq] at hx
                  subst hx
                  exact hoff
          · rw [if_neg hbound] at h
            injection h with h
            subst h
            refine ⟨by simp, by simp, by simp⟩

/-- Counterexample for C4 as stated: on `c4DemoBuf` the single yielded
attribute has `offset + size() = 0x50 > bytes_in_use = 0x48`, because its
declared size dword `0x10` passes the loop guard (`0x38 + 0x10 ≤ 0x48`) but
`size()` rounds it up to `0x18`. -/
theorem mft_attributes_size_bound_cex :
    (MFTRecord.parse c4DemoBuf).bind (fun r => r.attributes) =
      some [c4DemoAttr] ∧
    (MFTRecord.parse c4DemoBuf).bind (fun r => r.bytes_in_use) = some 0x48 ∧
    0x48 < c4DemoAttr.offset + c4DemoAttr.size := by
  refine ⟨by decide, by decide, by decide⟩

/-- Witness for C4: the amended theorem applied to the concrete record. -/
theorem mft_attributes_iteration_witness :
    MFTRecord.attributesAux c4DemoBuf 0x48 0x4A 0x38 = some [c4DemoAttr] ∧
    c4DemoAttr.size % 8 = 0 ∧
    c4DemoAttr.offset + c4DemoAttr.declaredSize ≤ 0x48 ∧
    c4DemoAttr.offset + c4DemoAttr.size ≤ 0x48 + 8 := by
  have h := (mft_attributes_iteration_spec c4DemoBuf 0x48 0x4A 0x38
    [c4DemoAttr] (by decide)).1 c4DemoAttr (by decide)
  exact ⟨by decide, h.1, h.2.1, h.2.2.1⟩

theorem fnScan_char (attrs : List Attribute) :
    ∀ acc : Option FilenameAttribute,
      fnScan attrs acc =
        match (fnViews attrs).find? (fun p => p.2 == 1 || p.2 == 3) with
        | some p => some p.1
        | none =>
          match (fnViews attrs).getLast? with
          | some q => some q.1
          | none => acc := by
  induction attrs with
  | nil => intro acc; rfl
  | cons a rest ih =>
    intro acc
    by_cases ht : a.type = ATTR_TYPE.FILENAME_INFORMATION
    · cases hv : a.value with
      | none =>
        have hf : fnViews (a :: rest) = fnViews rest := by
          unfold fnViews
          rw [List.filterMap_cons]
          simp [ht, hv]
        have hl : fnScan (a :: rest) acc = fnScan rest acc := by
          rw [fnScan, if_pos ht, hv]
        rw [hl, hf]
        exact ih acc
      | some v =>
        cases hp : parseFilenameAttribute v 0 with
        | none =>
          have hf : fnViews (a :: rest) = fnViews rest := by
            unfold fnViews
            rw [List.filterMap_cons]
            simp [ht, hv, hp]
          have hl : fnScan (a :: rest) acc = fnScan rest acc := by
            rw [fnScan, if_pos ht, hv]
            dsimp only
            rw [hp]
          rw [hl, hf]
          exact ih acc
        | some check =>
          cases hft : check.filename_type with
          | none =>
            have hf : fnViews (a :: rest) = fnViews rest := by
              unfold fnViews
              rw [List.filterMap_cons]
              simp [ht, hv, hp, hft]
            have hl : fnScan (a :: rest) acc = fnScan rest acc := by
              rw [fnScan, if_pos ht, hv]
              dsimp only
              rw [hp]
              dsimp only
              rw [hft]
            rw [hl, hf]
            exact ih acc
          | some t =>
            have hf : fnViews (a :: rest) = (check, t) :: fnViews rest := by
              unfold fnViews
              rw [List.filterMap_cons]
              simp [ht, hv, hp, hft]
            by_cases htype : t = 0x0001 ∨ t = 0x0003
            · have hl : fnScan (a :: rest) acc = some check := by
                rw [fnScan, if_pos ht, hv]
                dsimp only
                rw [hp]
                dsimp only
                rw [hft]
                dsimp only
                rw [if_pos htype]
              have hfc : List.find? (fun p => p.2 == 1 || p.2 == 3)
                  ((check, t) :: fnViews rest) = some (check, t) := by
                rw [List.find?_cons]
                rcases htype with h | h <;> simp [h]
              rw [hl, hf, hfc]
            · have hl : fnScan (a :: rest) acc = fnScan rest (some check) := by
                rw [fnScan, if_pos ht, hv]
                dsimp only
                rw [hp]
                dsimp only
                rw [hft]
                dsimp only
                rw [if_neg htype]
              have hfc : List.find? (fun p => p.2 == 1 || p.2 == 3)
                  ((check, t) :: fnViews rest) =
                  List.find? (fun p => p.2 == 1 || p.2 == 3) (fnViews rest) := by
                rw [List.find?_cons]
                push_neg at htype
                have hb : (t == 1 || t == 3) = false := by
                  simp [htype.1, htype.2]
                rw [hb]
              rw [hl, hf, ih (some check), hfc]
              cases hfind :
                  (fnViews rest).find? (fun p => p.2 == 1 || p.2 == 3) with
              | some p => rfl
              | none =>
                cases hvs : fnViews rest with
                | nil => rfl
                | cons y ys =>
                  rw [List.getLast?_cons_cons]
                  cases hlast : (y :: ys).getLast? with
                  | some q => rfl
                  | none =>
                    have h2 : (y :: ys).getLast?.isSome :=
                      List.getLast?_isSome.2 (by simp)
                    rw [hlast] at h2
                    simp at h2
    · have hf : fnViews (a :: rest) = fnViews rest := by
        unfold fnViews
        rw [List.filterMap_cons]
        simp [ht]
      have hl : fnScan (a :: rest) acc = fnScan rest acc := by
        rw [fnScan, if_neg ht]
      rw [hl, hf]
      exact ih acc

/-- C8: `MFTRecord.filename_information` scans the FILENAME attributes in
order, parsing each resident value as a `FilenameAttribute` view (a parse
failure — non-resident value, overrun, or unreadable `filename_type` — is
swallowed and does not prevent a later valid attribute from being
returned): it returns the first successfully parsed view whose
`filename_type` is Win32 (1) or Win32+DOS (3) immediately, otherwise the
last successfully parsed view once the scan ends, and `False` (here the
inner `none`) when no view parsed. -/
theorem filename_information_selection_spec :
    (∀ attrs : List Attribute,
      fnScan attrs none =
        match (fnViews attrs).find? (fun p => p.2 == 1 || p.2 == 3) with
        | some p => some p.1
        | none => ((fnViews attrs).getLast?).map Prod.fst) ∧
    (∀ (r : MFTRecord) (attrs : List Attribute), r.attributes = some attrs →
      r.filename_information = some
        (match (fnViews attrs).find? (fun p => p.2 == 1 || p.2 == 3) with
        | some p => some p.1
        | none => ((fnViews attrs).getLast?).map Prod.fst)) := by
  have hbase : ∀ attrs : List Attribute,
      fnScan attrs none =
        match (fnViews attrs).find? (fun p => p.2 == 1 || p.2 == 3) with
        | some p => some p.1
        | none => ((fnViews attrs).getLast?).map Prod.fst := by
    intro attrs
    rw [fnScan_char attrs none]
    cases (fnViews attrs).find? (fun p => p.2 == 1 || p.2 == 3) with
    | some p => rfl
    | none =>
      cases (fnViews attrs).getLast? with
      | some q => rfl
      | none => rfl
  refine ⟨hbase, ?_⟩
  intro r attrs h
  unfold MFTRecord.filename_information
  rw [h]
  simp only [Option.map_some']
  rw [hbase attrs]

/-- Witness for C8: on the concrete record with one DOS-namespace FILENAME
attribute, `filename_information` returns that last (only) parsed view. -/
theorem filename_information_selection_witness :
    MFTRecord.parse c8DemoBuf = some { buf := c8DemoBuf } ∧
    MFTRecord.filename_information { buf := c8DemoBuf } = some (some c8DemoFn) := by
  have h := filename_information_selection_spec.2 { buf := c8DemoBuf }
    [c8DemoAttr] (by decide)
  exact ⟨by decide, h.trans (by decide)⟩

theorem buildPathBody_mono (file : List Nat) (pfx : Option String)
    (k1 k2 : MFTRecord → List Nat → Option String)
    (hk : ∀ r c s, k1 r c = some s → k2 r c = some s) :
    ∀ (r : MFTRecord) (c : List Nat) (s : String),
      buildPathBody file pfx k1 r c = some s →
      buildPathBody file pfx k2 r c = some s := by
  intro r c s h
  unfold buildPathBody at h ⊢
  cases hm : r.mft_record_number with
  | none => rw [hm] at h; simp at h
  | some mrn =>
    rw [hm] at h
    simp only [Option.bind_eq_bind, Option.some_bind] at h ⊢
    by_cases h5 : mrn &&& 0xFFFFFFFFFFFF = 0x0005
    · rw [if_pos h5] at h ⊢
      exact h
    · rw [if_neg h5] at h ⊢
      cases hfi : r.filename_information with
      | none => rw [hfi] at h; simp at h
      | some fnRes =>
        rw [hfi] at h
        simp only [Option.some_bind] at h ⊢
        cases fnRes with
        | none => exact h
        | some fn =>
          dsimp only at h ⊢
          by_cases hpb : NTFSFile.mft_get_record_buf file
              (fn.mft_parent_reference &&& 0xFFFFFFFFFFFF) = []
          · rw [if_pos hpb] at h ⊢
            exact h
          · rw [if_neg hpb] at h ⊢
            cases hpar : MFTRecord.parse (NTFSFile.mft_get_record_buf file
                (fn.mft_parent_reference &&& 0xFFFFFFFFFFFF)) with
            | none => rw [hpar] at h; simp at h
            | some parent =>
              rw [hpar] at h
              simp only [Option.some_bind] at h ⊢
              cases hsq : parent.sequence_number with
              | none => rw [hsq] at h; simp at h
              | some pseq =>
                rw [hsq] at h
                simp only [Option.some_bind] at h ⊢
                by_cases horph : pseq ≠ fn.mft_parent_reference >>> 48
                · rw [if_pos horph] at h ⊢
                  exact h
                · rw [if_neg horph] at h ⊢
                  by_cases hcy : mrn &&& 0xFFFFFFFFFFFF ∈ c
                  · rw [if_pos hcy] at h ⊢
                    exact h
                  · rw [if_neg hcy] at h ⊢
                    cases hrec : k1 parent ((mrn &&& 0xFFFFFFFFFFFF) :: c) with
                    | none => rw [hrec] at h; simp at h
                    | some p =>
                      rw [hrec] at h
                      rw [hk parent ((mrn &&& 0xFFFFFFFFFFFF) :: c) p hrec]
                      exact h

theorem build_path_mono (file : List Nat) (pfx : Option String) :
    ∀ (fuel : Nat) (record : MFTRecord) (cyc : List Nat) (s : String),
      NTFSFile.mft_record_build_path file pfx fuel record cyc = some s →
      NTFSFile.mft_record_build_path file pfx (fuel + 1) record cyc = some s := by
  intro fuel
  induction fuel with
  | zero =>
    intro r c s h
    simp [NTFSFile.mft_record_build_path] at h
  | succ f ih =>
    intro r c s h
    rw [NTFSFile.mft_record_build_path] at h ⊢
    exact buildPathBody_mono file pfx _ _ (fun r' c' s' h' => ih r' c' s' h')
      r c s h

/-- C5 (amended): for records X and Y that each name the other as parent
with matching sequence numbers, `mft_record_build_path(X)` terminates — any
recursion budget of at least 4 produces the same answer — and returns
`"\<CYCLE>" ++ "\Y.name" ++ "\X.name"` (with the configured prefix
prepended to `"\<CYCLE>"` when one is set): the cycle sentinel is the root
of the returned path, with the names of the records traversed on the way to
the cycle appended while the recursion unwinds, not the bare string
`"\<CYCLE>"` (see the counterexample). -/
theorem build_path_cycle_spec :
    (∀ f : Nat, (MFTRecord.parse (NTFSFile.mft_get_record_buf c5File 0)).bind
        (fun X => NTFSFile.mft_record_build_path c5File none (4 + f) X []) =
      some "\\<CYCLE>\\Y\\X") ∧
    (∀ f : Nat, (MFTRecord.parse (NTFSFile.mft_get_record_buf c5File 0)).bind
        (fun X => NTFSFile.mft_record_build_path c5File (some "C:") (4 + f) X []) =
      some "C:\\<CYCLE>\\Y\\X") := by
  have hX : MFTRecord.parse (NTFSFile.mft_get_record_buf c5File 0) =
      some { buf := c5XBuf } := by decide
  constructor
  · intro f
    rw [hX]
    simp only [Option.some_bind]
    induction f with
    | zero => decide
    | succ g ihg =>
      have he : 4 + (g + 1) = (4 + g) + 1 := by omega
      rw [he]
      exact build_path_mono c5File none (4 + g) { buf := c5XBuf } []
        "\\<CYCLE>\\Y\\X" ihg
  · intro f
    rw [hX]
    simp only [Option.some_bind]
    induction f with
    | zero => decide
    | succ g ihg =>
      have he : 4 + (g + 1) = (4 + g) + 1 := by omega
      rw [he]
      exact build_path_mono c5File (some "C:") (4 + g) { buf := c5XBuf } []
        "C:\\<CYCLE>\\Y\\X" ihg

/-- Counterexample for C5 as stated: on the concrete two-record cycle the
path returned is `"\<CYCLE>\Y\X"`, not the bare `"\<CYCLE>"` the claim
gives, because every unwinding frame appends `"\" + fn.filename()`. -/
theorem build_path_cycle_cex :
    (MFTRecord.parse (NTFSFile.mft_get_record_buf c5File 0)).bind
      (fun X => NTFSFile.mft_record_build_path c5File none 10 X []) =
      some "\\<CYCLE>\\Y\\X" ∧
    ("\\<CYCLE>\\Y\\X" : String) ≠ "\\<CYCLE>" := by
  refine ⟨by decide, by decide⟩

/-- C10: a record whose `FilenameAttribute` is present but whose parent
record number (low 48 bits of the parent reference) resolves to an empty
record buffer makes `mft_record_build_path` return `"\??\" ++ filename`
rather than raising `InvalidMFTRecordNumber` (which only `mft_get_record`
raises — `build_path` tests for the empty buffer itself) or failing. -/
theorem build_path_empty_parent_buf :
    ∀ (file : List Nat) (pfx : Option String) (fuel : Nat) (record : MFTRecord)
      (cyc : List Nat) (mrn : Nat) (fn : FilenameAttribute) (units : List Nat),
      record.mft_record_number = some mrn →
      mrn &&& 0xFFFFFFFFFFFF ≠ 0x0005 →
      record.filename_information = some (some fn) →
      fn.filename = some units →
      NTFSFile.mft_get_record_buf file
        (fn.mft_parent_reference &&& 0xFFFFFFFFFFFF) = [] →
      NTFSFile.mft_record_build_path file pfx (fuel + 1) record cyc =
        some ("\\??\\" ++ decodeFilename units) := by
  intro file pfx fuel record cyc mrn fn units h1 h2 h3 h4 h5
  rw [NTFSFile.mft_record_build_path]
  unfold buildPathBody
  rw [h1]
  simp only [Option.bind_eq_bind, Option.some_bind]
  rw [if_neg h2, h3]
  simp only [Option.some_bind]
  rw [if_pos h5, h4]
  simp only [Option.some_bind]
  rfl

/-- Witness for C10: the theorem applied to the concrete record Z, whose
parent reference names record 7 of a one-record file. -/
theorem build_path_empty_parent_witness :
    MFTRecord.mft_record_number { buf := c10Buf } = some 0 ∧
    MFTRecord.filename_information { buf := c10Buf } = some (some c10Fn) ∧
    NTFSFile.mft_get_record_buf c10Buf
      (c10Fn.mft_parent_reference &&& 0xFFFFFFFFFFFF) = [] ∧
    NTFSFile.mft_record_build_path c10Buf none 1 { buf := c10Buf } [] =
      some "\\??\\X" := by
  refine ⟨by decide, by decide, by decide, ?_⟩
  have h := build_path_empty_parent_buf c10Buf none 0 { buf := c10Buf } []
    0 c10Fn [0x58] (by decide) (by decide) (by decide) (by decide) (by decide)
  exact h.trans (by decide)

theorem parseIndexEntry_elim (buf : List Nat) (base off : Nat)
    (e : IndexEntryView) (h : parseIndexEntry buf base off = some e) :
    e.relOffset = off ∧ unpack_word buf (base + off + 0x8) = some e.length ∧
    unpack_word buf (base + off + 0xA) = some e.filename_information_length := by
  unfold parseIndexEntry at h
  cases hA : unpack_word buf (base + off + 0xA) with
  | none => rw [hA] at h; simp at h
  | some fil =>
    rw [hA] at h
    cases h8 : unpack_word buf (base + off + 0x8) with
    | none => rw [h8] at h; simp at h
    | some len =>
      rw [h8] at h
      simp only [Option.bind_eq_bind, Option.some_bind] at h
      injection h with h
      subst h
      exact ⟨rfl, rfl, rfl⟩

/-- C6 (amended): every live entry yielded by the index-node `entries`
iteration *starts* within the entry list — `e.offset + 0x52 ≤
node.entry_list_end`, since iteration starts at `entry_list_start`,
continues while the cursor is at most `entry_list_end − 0x52`, and advances
by each yielded entry's declared length — but `e.offset + e.length` itself
is never checked against `entry_list_end` and can exceed it (see the
counterexample). -/
theorem node_entries_iteration_spec :
    ∀ (buf : List Nat) (base listEnd fuel off : Nat) (l : List IndexEntryView),
      nodeEntriesAux buf base listEnd fuel off = some l →
      (∀ e ∈ l, e.relOffset + 0x52 ≤ listEnd ∧
        unpack_word buf (base + e.relOffset + 0x8) = some e.length) ∧
      (∀ (i : Nat) (e e' : IndexEntryView), l[i]? = some e →
        l[i + 1]? = some e' → e'.relOffset = e.relOffset + e.length) ∧
      (∀ e, l[0]? = some e → e.relOffset = off) := by
  intro buf base listEnd fuel
  induction fuel with
  | zero =>
    intro off l h
    injection h with h
    subst h
    refine ⟨by simp, by simp, by simp⟩
  | succ fuel ih =>
    intro off l h
    rw [nodeEntriesAux] at h
    by_cases hcond : (off : Int) ≤ (listEnd : Int) - 0x52
    · rw [if_pos hcond] at h
      cases hp : parseIndexEntry buf base off with
      | none => rw [hp] at h; simp at h
      | some e =>
        rw [hp] at h
        simp only [Option.bind_eq_bind, Option.some_bind] at h
        cases hrest : nodeEntriesAux buf base listEnd fuel (off + e.length) with
        | none => rw [hrest] at h; simp at h
        | some rest =>
          rw [hrest] at h
          simp only [Option.some_bind] at h
          injection h with h
          subst h
          obtain ⟨hoff, h8, hA⟩ := parseIndexEntry_elim buf base off e hp
          obtain ⟨ih1, ih2, ih3⟩ := ih (off + e.length) rest hrest
          refine ⟨?_, ?_, ?_⟩
          · intro x hx
            rcases List.mem_cons.1 hx with hx | hx
            · subst hx
              refine ⟨by omega, ?_⟩
              rw [hoff]
              exact h8
            · exact ih1 x hx
          · intro i x x' hxi hxi'
            cases i with
            | zero =>
              simp only [List.getElem?_cons_zero, Option.some.injEq] at hxi
              simp only [List.getElem?_cons_succ] at hxi'
              subst hxi
              rw [ih3 x' hxi', hoff]
            | succ j =>
              simp only [List.getElem?_cons_succ] at hxi hxi'
              exact ih2 j x x' hxi hxi'
          · intro x hx
            simp only [List.getElem?_cons_zero, Option.some.injEq] at hx
            subst hx
            exact hoff
    · rw [if_neg hcond] at h
      injection h with h
      subst h
      refine ⟨by simp, by simp, by simp⟩

/-- Counterexample for C6 as stated: the yielded entry of `c6DemoBuf` has
`offset + length = 0x110 > entry_list_end = 0x70`; the loop checked only
that its start offset `0x10` was at most `0x70 − 0x52`. -/
theorem node_entries_length_bound_cex :
    NTATTR_STANDARD_INDEX_HEADER.entries c6DemoBuf 0 2 = some [c6DemoEntry] ∧
    unpack_dword c6DemoBuf 0x4 = some 0x70 ∧
    0x70 < c6DemoEntry.relOffset + c6DemoEntry.length := by
  refine ⟨by decide, by decide, by decide⟩

/-- Witness for C6: the amended theorem applied to the concrete node. -/
theorem node_entries_iteration_witness :
    nodeEntriesAux c6DemoBuf 0 0x70 2 0x10 = some [c6DemoEntry] ∧
    c6DemoEntry.relOffset + 0x52 ≤ 0x70 := by
  have h := (node_entries_iteration_spec c6DemoBuf 0 0x70 2 0x10 [c6DemoEntry]
    (by decide)).1 c6DemoEntry (by decide)
  exact ⟨by decide, h.1⟩
